import Mathlib

/-!
# RPN calculator (`src/rpn_calc.cpp`): embedding and verified properties

The class `RPNCalculator` is embedded as a state record (`stack_`, `history_`)
and its member functions as state-passing functions that return the outcome
(a value or the thrown error) together with the state left behind.

`double` is embedded as IEEE-754 binary64 with round-to-nearest-even
(`Double`); `long long` as `Int` wrapped to 64 bits; `int` as `Int` with the
x86-64 conversion rule for out-of-range values.  `std::pow` and
`std::to_string` are library functions whose exact results are not fixed by
the language, so they are parameters (`CLib`).  What the program writes to
the console is not part of the state and is left out; the loop of `main` is
embedded as the effect of one input line on the calculator (`mainStep`).
-/

namespace RPN

set_option maxRecDepth 100000

/-! ## IEEE-754 binary64 -/

/-- A binary64 value: NaN, a signed infinity, or the finite number
`(-1)^neg * m * 2^e`.  Results of operations are canonical: `e = -1074` with
`m < 2^52` (zero and subnormals) or `2^52 ≤ m < 2^53` with `-1074 ≤ e ≤ 971`. -/
inductive Double where
  | nan
  | inf (neg : Bool)
  | fin (neg : Bool) (m : Nat) (e : Int)
  deriving DecidableEq

namespace Double

/-- Positive zero, the value of the literal `0` in `b == 0` and `a < 0`. -/
def zero : Double := .fin false 0 (-1074)

/-- Number of binary digits of `n` (`0` for `0`); the first argument bounds
the number of halvings. -/
def bitLenAux : Nat → Nat → Nat
  | 0, _ => 0
  | fuel + 1, n => if n = 0 then 0 else bitLenAux fuel (n / 2) + 1

/-- Number of binary digits of `n`: `2^(bitLen n - 1) ≤ n < 2^(bitLen n)` for
`n > 0`. -/
def bitLen (n : Nat) : Nat := bitLenAux n n

/-- Last step of rounding: a carry out of the 53-bit significand bumps the
exponent, and an exponent above 971 overflows to infinity. -/
def pack (neg : Bool) (q : Nat) (t : Int) : Double :=
  let q1 := if q = 2 ^ 53 then 2 ^ 52 else q
  let t1 := if q = 2 ^ 53 then t + 1 else t
  if t1 > 971 then .inf neg else .fin neg q1 t1

/-- Round to nearest, ties to even.  The magnitude being rounded is
`m * 2^e` when `sticky = false`, and lies strictly between `m * 2^e` and
`(m + 1) * 2^e` when `sticky = true`. -/
def round (neg : Bool) (m : Nat) (e : Int) (sticky : Bool) : Double :=
  if m = 0 then .fin neg 0 (-1074)
  else
    let len : Int := (bitLen m : Int)
    let t : Int := max (e + len - 53) (-1074)
    if t ≤ e then pack neg (m <<< (e - t).toNat) t
    else
      let sh := (t - e).toNat
      let q := m >>> sh
      let r := m % 2 ^ sh
      let half := 2 ^ (sh - 1)
      let up := decide (half < r) || (decide (r = half) && (sticky || decide (q % 2 = 1)))
      pack neg (if up then q + 1 else q) t

/-- Round the magnitude `p / q * 2^e` (`q > 0`): the quotient is taken with
at least 64 significant bits and the remainder becomes the sticky bit. -/
def roundQ (neg : Bool) (p q : Nat) (e : Int) : Double :=
  if p = 0 then .fin neg 0 (-1074)
  else
    let s : Nat := (66 + bitLen q) - bitLen p
    let p1 := p <<< s
    round neg (p1 / q) (e - s) (decide (p1 % q ≠ 0))

/-- The finite value `(-1)^neg * m * 2^e` as an integer multiple of `2^e0`,
for `e0 ≤ e`. -/
def scaled (neg : Bool) (m : Nat) (e e0 : Int) : Int :=
  let v : Int := ((m <<< (e - e0).toNat : Nat) : Int)
  if neg then -v else v

/-- IEEE `a < b` (false when either side is NaN). -/
def lt : Double → Double → Bool
  | .nan, _ => false
  | _, .nan => false
  | .inf na, .inf nb => na && !nb
  | .inf na, .fin _ _ _ => na
  | .fin _ _ _, .inf nb => !nb
  | .fin na ma ea, .fin nb mb eb =>
      decide (scaled na ma ea (min ea eb) < scaled nb mb eb (min ea eb))

/-- IEEE `a == b` (false when either side is NaN; `+0 == -0`). -/
def eq : Double → Double → Bool
  | .nan, _ => false
  | _, .nan => false
  | .inf na, .inf nb => na == nb
  | .inf _, .fin _ _ _ => false
  | .fin _ _ _, .inf _ => false
  | .fin na ma ea, .fin nb mb eb =>
      decide (scaled na ma ea (min ea eb) = scaled nb mb eb (min ea eb))

/-- IEEE `a != b`, the negation of `==`. -/
def ne (a b : Double) : Bool := !(eq a b)

/-- IEEE addition. -/
def add : Double → Double → Double
  | .nan, _ => .nan
  | _, .nan => .nan
  | .inf na, .inf nb => if na = nb then .inf na else .nan
  | .inf na, .fin _ _ _ => .inf na
  | .fin _ _ _, .inf nb => .inf nb
  | .fin na ma ea, .fin nb mb eb =>
      let e := min ea eb
      let s := scaled na ma ea e + scaled nb mb eb e
      if s = 0 then .fin (na && nb) 0 (-1074)
      else round (decide (s < 0)) s.natAbs e false

/-- Sign flip. -/
def neg : Double → Double
  | .nan => .nan
  | .inf n => .inf (!n)
  | .fin n m e => .fin (!n) m e

/-- IEEE subtraction, `a + (-b)`. -/
def sub (a b : Double) : Double := add a (neg b)

/-- IEEE multiplication. -/
def mul : Double → Double → Double
  | .nan, _ => .nan
  | _, .nan => .nan
  | .inf na, .inf nb => .inf (na != nb)
  | .inf na, .fin nb mb _ => if mb = 0 then .nan else .inf (na != nb)
  | .fin na ma _, .inf nb => if ma = 0 then .nan else .inf (na != nb)
  | .fin na ma ea, .fin nb mb eb => round (na != nb) (ma * mb) (ea + eb) false

/-- IEEE division. -/
def div : Double → Double → Double
  | .nan, _ => .nan
  | _, .nan => .nan
  | .inf _, .inf _ => .nan
  | .inf na, .fin nb _ _ => .inf (na != nb)
  | .fin na _ _, .inf nb => .fin (na != nb) 0 (-1074)
  | .fin na ma ea, .fin nb mb eb =>
      if mb = 0 then (if ma = 0 then .nan else .inf (na != nb))
      else roundQ (na != nb) ma mb (ea - eb)

/-- Integer square root by bisection on the bits: `isqrtLoop n k r` decides
bits `k-1 .. 0` of the root given the higher bits `r`. -/
def isqrtLoop (n : Nat) : Nat → Nat → Nat
  | 0, r => r
  | k + 1, r => isqrtLoop n k (if (r + 2 ^ k) * (r + 2 ^ k) ≤ n then r + 2 ^ k else r)

/-- Largest `r` with `r * r ≤ n`. -/
def isqrt (n : Nat) : Nat := isqrtLoop n (bitLen n / 2 + 1) 0

/-- IEEE square root (`std::sqrt`), correctly rounded. -/
def sqrt : Double → Double
  | .nan => .nan
  | .inf n => if n then .nan else .inf false
  | .fin n m e =>
      if m = 0 then .fin n 0 (-1074)
      else if n then .nan
      else
        let s0 : Nat := 130 - bitLen m
        let s : Nat := if (e - s0) % 2 = 0 then s0 else s0 + 1
        let big := m <<< s
        let r := isqrt big
        round false r ((e - s) / 2) (decide (r * r ≠ big))

/-- `std::floor`. -/
def floor : Double → Double
  | .nan => .nan
  | .inf n => .inf n
  | .fin n m e =>
      if 0 ≤ e then .fin n m e
      else
        let q := m >>> (-e).toNat
        let exact := decide (m % 2 ^ (-e).toNat = 0)
        let q1 := if n && !exact then q + 1 else q
        if q1 = 0 then .fin n 0 (-1074) else round n q1 0 false

/-- Smallest `int`. -/
def INT_MIN : Int := -2147483648

/-- `static_cast<int>(n)`: truncation toward zero.  When the truncated value
does not fit in `int` (or `n` is NaN or infinite) the conversion is undefined
in C++; the x86-64 instruction `cvttsd2si` then delivers `INT_MIN`, which is
what is modelled. -/
def toInt : Double → Int
  | .nan => INT_MIN
  | .inf _ => INT_MIN
  | .fin n m e =>
      let t : Nat := if 0 ≤ e then m <<< e.toNat else m >>> (-e).toNat
      let v : Int := if n then -(t : Int) else (t : Int)
      if INT_MIN ≤ v ∧ v ≤ 2147483647 then v else INT_MIN

/-- `static_cast<double>(a)` for a `long long` value. -/
def ofInt (a : Int) : Double :=
  if a = 0 then zero else round (decide (a < 0)) a.natAbs 0 false

/-- The number `p / q * 2^e` equals the magnitude of the finite double
`m * 2^e1`. -/
def exactQ (p q : Nat) (m : Nat) (e1 : Int) : Bool :=
  if 0 ≤ e1 then decide (p = (m <<< e1.toNat) * q) else decide (p <<< (-e1).toNat = m * q)

/-- Tininess of the positive number `p / q` as `strtod` detects it on x86-64
(after rounding): rounded to 53 significant bits with unbounded exponent
range, to nearest and ties to even, it is still below the smallest normal
number `2^-1022`.  The quotient is taken with at least 64 bits, `sh` bits of
it are rounded away, and the result is `q1 * 2^(sh - s)`. -/
def tinyQ (p q : Nat) : Bool :=
  if p = 0 then false
  else
    let s : Nat := (66 + bitLen q) - bitLen p
    let quo := (p <<< s) / q
    let sticky := decide ((p <<< s) % q ≠ 0)
    let sh := bitLen quo - 53
    let q0 := quo >>> sh
    let r := quo % 2 ^ sh
    let half := 2 ^ (sh - 1)
    let up := decide (half < r) || (decide (r = half) && (sticky || decide (q0 % 2 = 1)))
    let q1 := if up then q0 + 1 else q0
    if q1 = 2 ^ 53 then decide ((sh : Int) - s + 1 < -1074) else decide ((sh : Int) - s < -1074)

/-- IEEE `a <= b` (false when either side is NaN). -/
def le (a b : Double) : Bool := lt a b || eq a b

end Double

/-! ## The calculator -/

/-- The exceptions the program can throw.  The first eight are the
`std::runtime_error`s of `rpn_calc.cpp`, told apart by their message and named
after the kind of failure; the last two are what `std::stod` throws. -/
inductive Error where
  | EmptyStack
  | InsufficientOperands
  | DivideByZero
  | NegativeSqrt
  | InvalidFibInput
  | FibOverflow
  | UnknownOperator (operation : String)
  | EmptyResult
  | InvalidArgument
  | OutOfRange
  deriving DecidableEq

/-- Library functions whose results the language does not pin down:
`std::pow` and `std::to_string(double)`. -/
structure CLib where
  pow : Double → Double → Double
  to_string : Double → String

/-- The data members of `class RPNCalculator`; the top of the stack is the
last element (`stack_.back()`). -/
structure RPNCalculator where
  stack_ : List Double
  history_ : List String
  deriving DecidableEq

/-- A member function: run from a state, it yields its return value or the
exception it threw, and the state it left behind. -/
def Method (α : Type) : Type := RPNCalculator → Except Error α × RPNCalculator

/-- Normal return. -/
def Method.pure {α : Type} (a : α) : Method α := fun c => (.ok a, c)

/-- Sequencing: an exception in the first part skips the rest and keeps the
state as it was when thrown. -/
def Method.bind {α β : Type} (m : Method α) (f : α → Method β) : Method β := fun c =>
  match m c with
  | (.ok a, c1) => f a c1
  | (.error err, c1) => (.error err, c1)

/-- The statement `throw err`. -/
def Method.throw {α : Type} (err : Error) : Method α := fun c => (.error err, c)

instance : Monad Method where
  pure := Method.pure
  bind := Method.bind

/-- The loop of `isNumber` from index `start`: digits and at most one `.`. -/
def isNumberLoop : List Char → Bool → Bool
  | [], _ => true
  | c :: cs, hasDecimal =>
      if c = '.' then (if hasDecimal then false else isNumberLoop cs true)
      else if !c.isDigit then false
      else isNumberLoop cs hasDecimal

/-- `RPNCalculator::isNumber`. -/
def isNumber (token : String) : Bool :=
  match token.data with
  | [] => false
  | c0 :: rest =>
      if c0 = '+' ∨ c0 = '-' then (if rest = [] then false else isNumberLoop rest false)
      else isNumberLoop (c0 :: rest) false

/-- Value of a string of decimal digits. -/
def digitsVal (ds : List Char) : Nat :=
  ds.foldl (fun acc c => 10 * acc + (c.toNat - 48)) 0

/-- `std::stod` on a token without whitespace, exponent part or special
names: optional sign, digits, optional `.` and digits.  It throws
`std::invalid_argument` when there is no digit to convert and
`std::out_of_range` when `strtod` reports `ERANGE` (overflow, or an inexact
result for a tiny value, see `Double.tinyQ`); otherwise the decimal value is
rounded to nearest. -/
def stod (token : String) : Except Error Double :=
  let cs := token.data
  let neg := decide (cs.head? = some '-')
  let body := match cs with
    | '+' :: r => r
    | '-' :: r => r
    | _ => cs
  let ip := body.takeWhile Char.isDigit
  let fp := match body.dropWhile Char.isDigit with
    | '.' :: r => r.takeWhile Char.isDigit
    | _ => []
  if ip = [] ∧ fp = [] then .error .InvalidArgument
  else
    let p := digitsVal (ip ++ fp)
    let q := 10 ^ fp.length
    match Double.roundQ neg p q 0 with
    | .fin n m e =>
        if Double.tinyQ p q = true ∧ Double.exactQ p q m e = false then .error .OutOfRange
        else .ok (.fin n m e)
    | _ => .error .OutOfRange

/-- Whitespace as `operator>>` skips it (`std::isspace` in the "C" locale). -/
def isSpace (c : Char) : Bool :=
  c = ' ' ∨ (9 ≤ c.toNat ∧ c.toNat ≤ 13)

/-- Split into maximal runs of non-whitespace characters; `cur` is the run
being read. -/
def splitTokens : List Char → List Char → List String
  | [], cur => if cur = [] then [] else [String.mk cur]
  | c :: cs, cur =>
      if isSpace c then
        (if cur = [] then splitTokens cs [] else String.mk cur :: splitTokens cs [])
      else splitTokens cs (cur ++ [c])

/-- The loop `while (iss >> token) tokens.push_back(token)`. -/
def tokenize (expr : String) : List String := splitTokens expr.data []

/-- `RPNCalculator::ensureSize`. -/
def ensureSize (required : Nat) : Method Unit := fun c =>
  if c.stack_.length < required then (.error .InsufficientOperands, c) else (.ok (), c)

/-- `RPNCalculator::push`. -/
def push (value : Double) : Method Unit := fun c =>
  (.ok (), { c with stack_ := c.stack_ ++ [value] })

/-- `RPNCalculator::pop`. -/
def pop : Method Double := fun c =>
  match c.stack_.getLast? with
  | none => (.error .EmptyStack, c)
  | some top => (.ok top, { c with stack_ := c.stack_.dropLast })

/-- `RPNCalculator::clear`. -/
def clear : Method Unit := fun c => (.ok (), { c with stack_ := [] })

/-- `RPNCalculator::printStack`, a `const` member: it only writes to the
console, which is not part of the state. -/
def printStack : Method Unit := fun c => (.ok (), c)

/-- A `long long` result, wrapped to 64 bits two's complement. -/
def wrap64 (x : Int) : Int := (x + 2 ^ 63) % 2 ^ 64 - 2 ^ 63

/-- The loop `for (i = 0; i < intN; ++i) { c = a + b; a = b; b = c; }` with
`k` iterations left; the result is the final `a`. -/
def fibLoop : Nat → Int → Int → Int
  | 0, a, _ => a
  | k + 1, a, b => fibLoop k b (wrap64 (a + b))

/-- `RPNCalculator::calculate`. -/
def calculate (lib : CLib) (operation : String) : Method Unit :=
  if operation = "+" then do
    ensureSize 2
    let b ← pop
    let a ← pop
    push (Double.add a b)
  else if operation = "-" then do
    ensureSize 2
    let b ← pop
    let a ← pop
    push (Double.sub a b)
  else if operation = "*" then do
    ensureSize 2
    let b ← pop
    let a ← pop
    push (Double.mul a b)
  else if operation = "/" then do
    ensureSize 2
    let b ← pop
    let a ← pop
    if Double.eq b Double.zero then do
      push a
      push b
      Method.throw .DivideByZero
    else
      push (Double.div a b)
  else if operation = "sqrt" then do
    ensureSize 1
    let a ← pop
    if Double.lt a Double.zero then do
      push a
      Method.throw .NegativeSqrt
    else
      push (Double.sqrt a)
  else if operation = "^" then do
    ensureSize 2
    let b ← pop
    let a ← pop
    push (lib.pow a b)
  else if operation = "fib" then do
    ensureSize 1
    let n ← pop
    if Double.lt n Double.zero || Double.ne (Double.floor n) n then do
      push n
      Method.throw .InvalidFibInput
    else
      let intN := Double.toInt n
      if intN > 93 then do
        push n
        Method.throw .FibOverflow
      else
        push (Double.ofInt (fibLoop intN.toNat 0 1))
  else if operation = "hist" then
    Method.pure ()
  else
    Method.throw (.UnknownOperator operation)

/-- One round of the token loop of `evaluate`. -/
def processToken (lib : CLib) (t : String) : Method Unit :=
  if isNumber t then
    (match stod t with
     | .ok v => push v
     | .error err => Method.throw err)
  else calculate lib t

/-- The loop `for (const std::string& t : tokens)` of `evaluate`. -/
def processTokens (lib : CLib) : List String → Method Unit
  | [] => Method.pure ()
  | t :: ts => Method.bind (processToken lib t) (fun _ => processTokens lib ts)

/-- `RPNCalculator::evaluate`: the `catch (...)` handler puts the saved stack
back and rethrows; the empty-result check and the history entry come after
the `try` block. -/
def evaluate (lib : CLib) (expr : String) : Method Double := fun c =>
  let tokens := tokenize expr
  let originalStack := c.stack_
  match processTokens lib tokens c with
  | (.error err, c1) => (.error err, { c1 with stack_ := originalStack })
  | (.ok _, c1) =>
      match c1.stack_.getLast? with
      | none => (.error .EmptyResult, c1)
      | some top =>
          (.ok top, { c1 with history_ := c1.history_ ++ [expr ++ " => " ++ lib.to_string top] })

/-! ## Specification-side definitions and a library instance -/

/-- Power with a natural exponent, computed exactly and rounded once. -/
def powNat : Double → Nat → Double
  | .fin n m e, k => Double.round (n && decide (k % 2 = 1)) (m ^ k) (e * k) false
  | _, _ => .nan

/-- A `pow` to run examples with: the correctly rounded power when the
exponent is a natural number up to 1023 and the base is finite, NaN
otherwise. -/
def refPow (a b : Double) : Double :=
  if Double.eq (Double.floor b) b && !Double.lt b Double.zero &&
      !Double.lt (Double.ofInt 1023) b then powNat a (Double.toInt b).toNat
  else .nan

/-- Six decimals of `m * 2^e` rounded to nearest, ties to even, as the
integer `round (m * 2^e * 10^6)`. -/
def micro (m : Nat) (e : Int) : Nat :=
  if 0 ≤ e then (m <<< e.toNat) * 1000000
  else
    let q := (m * 1000000) >>> (-e).toNat
    let r := (m * 1000000) % 2 ^ (-e).toNat
    let half := 2 ^ ((-e).toNat - 1)
    if half < r ∨ (r = half ∧ q % 2 = 1) then q + 1 else q

/-- A `to_string` to run examples with: `printf("%f")`. -/
def refToString : Double → String
  | .nan => "nan"
  | .inf n => if n then "-inf" else "inf"
  | .fin n m e =>
      let u := micro m e
      let frac := Nat.toDigits 10 (u % 1000000)
      (if n then "-" else "") ++ String.mk (Nat.toDigits 10 (u / 1000000)) ++ "." ++
        String.mk (List.replicate (6 - frac.length) '0' ++ frac)

/-- A library instance for running the calculator on concrete inputs. -/
def refLib : CLib := ⟨refPow, refToString⟩

/-- The empty calculator, as `main` creates it. -/
def fresh : RPNCalculator := ⟨[], []⟩

/-- Effect of one token on a bare stack, in the words of the evaluation
contract: a literal is parsed and pushed, anything else is an operator step;
`none` when the step fails. -/
def applyToken (lib : CLib) (s : List Double) (t : String) : Option (List Double) :=
  if isNumber t then
    (match stod t with
     | .ok v => some (s ++ [v])
     | .error _ => none)
  else
    (match calculate lib t ⟨s, []⟩ with
     | (.ok _, c1) => some c1.stack_
     | (.error _, _) => none)

/-- Tokens applied left to right, starting from `s`. -/
def foldTokens (lib : CLib) : List String → List Double → Option (List Double)
  | [], s => some s
  | t :: ts, s => (applyToken lib s t).bind (foldTokens lib ts)

/-- A sequence of `evaluate` calls on one calculator, as the loop of `main`
issues them: the outcomes in call order and the final state. -/
def evaluateAll (lib : CLib) : List String → RPNCalculator →
    List (Except Error Double) × RPNCalculator
  | [], c => ([], c)
  | e :: es, c =>
      ((evaluate lib e c).1 :: (evaluateAll lib es (evaluate lib e c).2).1,
        (evaluateAll lib es (evaluate lib e c).2).2)

/-- The history entries owed to a sequence of calls: one per successful call,
in call order. -/
def successEntries (lib : CLib) : List String → List (Except Error Double) → List String
  | e :: es, .ok v :: rs => (e ++ " => " ++ lib.to_string v) :: successEntries lib es rs
  | _ :: es, .error _ :: rs => successEntries lib es rs
  | _, _ => []

/-- Number of successful outcomes. -/
def successCount : List (Except Error Double) → Nat
  | [] => 0
  | .ok _ :: rs => successCount rs + 1
  | .error _ :: rs => successCount rs

/-- `d` is a non-negative finite double at distance at most `2^-k` from the
rational number `p / q`. -/
def Double.within (d : Double) (p q k : Nat) : Bool :=
  match d with
  | .fin false m e =>
      decide (e ≤ 0 ∧
        ((m * q : Int) - p * 2 ^ (-e).toNat).natAbs * 2 ^ k ≤ q * 2 ^ (-e).toNat)
  | _ => false

/-- The literal grammar in the words of the specification: the token is
non-empty, and after removing at most one leading `+` or `-` what remains is
non-empty and consists solely of decimal digits and at most one `.`. -/
def IsLiteral (t : String) : Prop :=
  t.data ≠ [] ∧
  ∃ r : List Char,
    (r = t.data ∨ ∃ sgn : Char, (sgn = '+' ∨ sgn = '-') ∧ t.data = sgn :: r) ∧
    r ≠ [] ∧ (∀ c ∈ r, c.isDigit = true ∨ c = '.') ∧ r.count '.' ≤ 1

deriving instance DecidableEq for Except

/-! ## The calculator without the per-operator restoration -/

/-- `calculate` with the manual restoration removed: on a domain error of
`/`, `sqrt` or `fib` the operands stay popped when the error is thrown.  All
other branches are those of `calculate`. -/
def calculateNoRestore (lib : CLib) (operation : String) : Method Unit :=
  if operation = "+" then do
    ensureSize 2
    let b ← pop
    let a ← pop
    push (Double.add a b)
  else if operation = "-" then do
    ensureSize 2
    let b ← pop
    let a ← pop
    push (Double.sub a b)
  else if operation = "*" then do
    ensureSize 2
    let b ← pop
    let a ← pop
    push (Double.mul a b)
  else if operation = "/" then do
    ensureSize 2
    let b ← pop
    let a ← pop
    if Double.eq b Double.zero then
      Method.throw .DivideByZero
    else
      push (Double.div a b)
  else if operation = "sqrt" then do
    ensureSize 1
    let a ← pop
    if Double.lt a Double.zero then
      Method.throw .NegativeSqrt
    else
      push (Double.sqrt a)
  else if operation = "^" then do
    ensureSize 2
    let b ← pop
    let a ← pop
    push (lib.pow a b)
  else if operation = "fib" then do
    ensureSize 1
    let n ← pop
    if Double.lt n Double.zero || Double.ne (Double.floor n) n then
      Method.throw .InvalidFibInput
    else
      let intN := Double.toInt n
      if intN > 93 then
        Method.throw .FibOverflow
      else
        push (Double.ofInt (fibLoop intN.toNat 0 1))
  else if operation = "hist" then
    Method.pure ()
  else
    Method.throw (.UnknownOperator operation)

/-- The token loop over `calculateNoRestore`. -/
def processTokensNoRestore (lib : CLib) : List String → Method Unit
  | [] => Method.pure ()
  | t :: ts =>
      Method.bind
        (if isNumber t then
          (match stod t with
           | .ok v => push v
           | .error err => Method.throw err)
         else calculateNoRestore lib t)
        (fun _ => processTokensNoRestore lib ts)

/-- `evaluate` over `calculateNoRestore`: the snapshot taken before the loop
is the only rollback. -/
def evaluateNoRestore (lib : CLib) (expr : String) : Method Double := fun c =>
  let tokens := tokenize expr
  let originalStack := c.stack_
  match processTokensNoRestore lib tokens c with
  | (.error err, c1) => (.error err, { c1 with stack_ := originalStack })
  | (.ok _, c1) =>
      match c1.stack_.getLast? with
      | none => (.error .EmptyResult, c1)
      | some top =>
          (.ok top, { c1 with history_ := c1.history_ ++ [expr ++ " => " ++ lib.to_string top] })

/-! ## The input loop of `main` -/

/-- The characters `main` trims from both ends of a line: space and tab. -/
def isBlank (c : Char) : Bool := c = ' ' ∨ c = Char.ofNat 9

/-- The line between `find_first_not_of(" \t")` and `find_last_not_of(" \t")`;
empty when the line has no other character. -/
def trimLine (line : String) : String :=
  String.mk ((line.data.dropWhile isBlank).reverse.dropWhile isBlank).reverse

/-- One round of the loop of `main` on a line read from the input: `none`
when the loop is left (`q` or `Q`), otherwise the calculator afterwards.  A
blank line, `help` and `print` leave it alone, `clear` empties the stack, and
every other line goes to `evaluate`, whose exception, if any, is caught and
printed. -/
def mainStep (lib : CLib) (line : String) (c : RPNCalculator) : Option RPNCalculator :=
  if (trimLine line).data = [] then some c
  else if trimLine line = "q" ∨ trimLine line = "Q" then none
  else if trimLine line = "help" then some c
  else if trimLine line = "clear" then some (clear c).2
  else if trimLine line = "print" then some (printStack c).2
  else some (evaluate lib (trimLine line) c).2

/-- Number of tokens that are numeric literals. -/
def countLiterals (ts : List String) : Nat := ts.countP (fun t => isNumber t)

/-- Number of tokens among the binary operators `+ - * / ^`. -/
def countBinary (ts : List String) : Nat :=
  ts.countP (fun t => decide (t = "+" ∨ t = "-" ∨ t = "*" ∨ t = "/" ∨ t = "^"))

/-- Number of operands an operator consumes: 2 for `+ - * / ^`, 1 for `sqrt`
and `fib`; `none` for every other token. -/
def arity (operation : String) : Option Nat :=
  if operation = "+" ∨ operation = "-" ∨ operation = "*" ∨ operation = "/" ∨
      operation = "^" then some 2
  else if operation = "sqrt" ∨ operation = "fib" then some 1
  else none

/-- The literal `10^309`: the digit `1` followed by 309 zeros. -/
def tenTo309 : String := String.mk ('1' :: List.replicate 309 '0')

/-! ## Facts about the doubles -/

theorem Double.eq_zero_iff (b : Double) :
    Double.eq b Double.zero = true ↔ ∃ n e, b = .fin n 0 e := by
  cases b with
  | nan => simp [Double.eq]
  | inf n => simp [Double.eq, Double.zero]
  | fin n m e =>
    simp only [Double.eq, Double.zero, Double.scaled, decide_eq_true_eq, Double.fin.injEq]
    constructor
    · intro h
      refine ⟨n, e, rfl, ?_, rfl⟩
      by_contra hm
      have hpos : 0 < m <<< (e - min e (-1074)).toNat := by
        rw [Nat.shiftLeft_eq]
        exact Nat.mul_pos (Nat.pos_of_ne_zero hm) (Nat.pow_pos (by decide))
      cases n <;> simp at h <;> omega
    · rintro ⟨n1, e1, -, hm, -⟩
      subst hm
      simp

theorem Double.lt_zero_iff (a : Double) :
    Double.lt a Double.zero = true ↔
      a = .inf true ∨ ∃ m e, a = .fin true m e ∧ m ≠ 0 := by
  cases a with
  | nan => simp [Double.lt]
  | inf n => simp [Double.lt, Double.zero]
  | fin n m e =>
    simp only [Double.lt, Double.zero, Double.scaled, decide_eq_true_eq, Double.fin.injEq]
    constructor
    · intro h
      right
      cases n with
      | false =>
        exfalso
        simp only [Nat.zero_shiftLeft, Bool.false_eq_true, if_false] at h
        exact absurd h (by simp)
      | true =>
        refine ⟨m, e, ⟨rfl, rfl, rfl⟩, ?_⟩
        rintro rfl
        simp at h
    · rintro (h | ⟨m1, e1, ⟨hn, hm, -⟩, hne⟩)
      · simp at h
      · subst hn
        subst hm
        have hpos : 0 < m <<< (e - min e (-1074)).toNat := by
          rw [Nat.shiftLeft_eq]
          exact Nat.mul_pos (Nat.pos_of_ne_zero hne) (Nat.pow_pos (by decide))
        simp
        omega

theorem Double.eq_self_fin (n : Bool) (m : Nat) (e : Int) :
    Double.eq (.fin n m e) (.fin n m e) = true := by
  simp [Double.eq]

theorem Double.pack_sign (neg : Bool) (q : Nat) (t : Int) :
    Double.pack neg q t = .inf neg ∨ ∃ q1 t1, Double.pack neg q t = .fin neg q1 t1 := by
  simp only [Double.pack]
  split_ifs <;> simp

theorem Double.round_sign (neg : Bool) (m : Nat) (e : Int) (sticky : Bool) :
    Double.round neg m e sticky = .inf neg ∨
      ∃ q1 t1, Double.round neg m e sticky = .fin neg q1 t1 := by
  simp only [Double.round]
  split_ifs
  · exact Or.inr ⟨_, _, rfl⟩
  all_goals exact Double.pack_sign _ _ _

theorem Double.round_false_not_lt_zero (m : Nat) (e : Int) (sticky : Bool) :
    Double.lt (Double.round false m e sticky) Double.zero = false := by
  rw [Bool.eq_false_iff, Ne, Double.lt_zero_iff]
  rcases Double.round_sign false m e sticky with hr | ⟨q1, t1, hr⟩ <;> rw [hr] <;> simp

/-- The square root of a value that is not below zero is not below zero. -/
theorem Double.sqrt_not_lt_zero (a : Double) (ha : Double.lt a Double.zero = false) :
    Double.lt (Double.sqrt a) Double.zero = false := by
  cases a with
  | nan => rfl
  | inf n =>
    cases n with
    | false => rfl
    | true => exact absurd ha (by decide)
  | fin n m e =>
    simp only [Double.sqrt]
    by_cases hm : m = 0
    · rw [if_pos hm, Bool.eq_false_iff, Ne, Double.lt_zero_iff]
      simp
    · rw [if_neg hm]
      cases n with
      | true =>
        have hlt := (Double.lt_zero_iff (.fin true m e)).mpr (Or.inr ⟨m, e, rfl, hm⟩)
        rw [hlt] at ha
        exact absurd ha (by decide)
      | false =>
        rw [if_neg (by decide)]
        exact Double.round_false_not_lt_zero _ _ _

/-! ## Exactly representable integers -/

theorem Double.bitLenAux_spec (fuel n : Nat) (hf : n ≤ fuel) (hn : n ≠ 0) :
    2 ^ (Double.bitLenAux fuel n - 1) ≤ n ∧ n < 2 ^ Double.bitLenAux fuel n := by
  induction fuel generalizing n with
  | zero => omega
  | succ fuel ih =>
    simp only [Double.bitLenAux, hn, if_false, Nat.add_sub_cancel]
    by_cases h2 : n / 2 = 0
    · have h1 : n = 1 := by omega
      subst h1
      cases fuel <;> simp [Double.bitLenAux]
    · obtain ⟨ih1, ih2⟩ := ih (n / 2) (by omega) h2
      have hpos : 0 < Double.bitLenAux fuel (n / 2) := by
        rcases Nat.eq_zero_or_pos (Double.bitLenAux fuel (n / 2)) with h0 | h0
        · rw [h0] at ih2
          omega
        · exact h0
      obtain ⟨j, hj⟩ : ∃ j, Double.bitLenAux fuel (n / 2) = j + 1 := ⟨_, (Nat.succ_pred_eq_of_pos hpos).symm⟩
      rw [hj] at ih1 ih2 ⊢
      simp only [Nat.add_sub_cancel] at ih1
      rw [pow_succ] at ih2 ⊢
      rw [pow_succ]
      omega

theorem Double.bitLen_spec (n : Nat) (hn : n ≠ 0) :
    2 ^ (Double.bitLen n - 1) ≤ n ∧ n < 2 ^ Double.bitLen n :=
  Double.bitLenAux_spec n n (Nat.le_refl n) hn

/-- A positive integer below `2^53` converts exactly: the significand is the
integer shifted up to 53 bits. -/
theorem Double.ofInt_exact (k : Nat) (h0 : k ≠ 0) (hk : k < 2 ^ 53) :
    Double.bitLen k ≤ 53 ∧ 1 ≤ Double.bitLen k ∧
    Double.ofInt k =
      .fin false (k <<< (53 - Double.bitLen k)) ((Double.bitLen k : Int) - 53) := by
  obtain ⟨hlo, hhi⟩ := Double.bitLen_spec k h0
  have hL1 : 1 ≤ Double.bitLen k := by
    rcases Nat.eq_zero_or_pos (Double.bitLen k) with hz | hz
    · rw [hz] at hhi
      omega
    · exact hz
  have hL53 : Double.bitLen k ≤ 53 := by
    by_contra hcon
    have : 2 ^ 53 ≤ 2 ^ (Double.bitLen k - 1) := Nat.pow_le_pow_right (by decide) (by omega)
    omega
  refine ⟨hL53, hL1, ?_⟩
  have hk0 : (k : Int) ≠ 0 := by exact_mod_cast h0
  have hneg : decide ((k : Int) < 0) = false := by
    simp
  have ht : max ((0 : Int) + (Double.bitLen k : Int) - 53) (-1074) = (Double.bitLen k : Int) - 53 := by
    omega
  have hsh : ((0 : Int) - ((Double.bitLen k : Int) - 53)).toNat = 53 - Double.bitLen k := by
    omega
  have hq : k <<< (53 - Double.bitLen k) ≠ 2 ^ 53 := by
    rw [Nat.shiftLeft_eq]
    have h1 : k * 2 ^ (53 - Double.bitLen k) < 2 ^ Double.bitLen k * 2 ^ (53 - Double.bitLen k) :=
      Nat.mul_lt_mul_of_pos_right hhi (Nat.pow_pos (by decide))
    rw [← pow_add, show Double.bitLen k + (53 - Double.bitLen k) = 53 from by omega] at h1
    omega
  simp only [Double.ofInt, hk0, if_false, hneg, Int.natAbs_ofNat, Double.round, h0, ht, hsh]
  rw [if_pos (by omega)]
  simp only [Double.pack, hq, if_false]
  rw [if_neg (by omega)]

/-- A positive integer below `2^53`, as a double, is not negative, is its own
floor, and converts back to itself when it fits in `int` and to `INT_MIN`
when it does not. -/
theorem Double.ofInt_checks (k : Nat) (h0 : k ≠ 0) (hk : k < 2 ^ 53) :
    Double.lt (Double.ofInt k) Double.zero = false ∧
    Double.ne (Double.floor (Double.ofInt k)) (Double.ofInt k) = false ∧
    Double.toInt (Double.ofInt k) = if k < 2 ^ 31 then (k : Int) else Double.INT_MIN := by
  obtain ⟨hL53, hL1, hof⟩ := Double.ofInt_exact k h0 hk
  have hshift : (k <<< (53 - Double.bitLen k)) >>> (53 - Double.bitLen k) = k := by
    rw [Nat.shiftLeft_eq, Nat.shiftRight_eq_div_pow]
    exact Nat.mul_div_cancel _ (Nat.pow_pos (by decide))
  have hmod : (k <<< (53 - Double.bitLen k)) % 2 ^ (53 - Double.bitLen k) = 0 := by
    rw [Nat.shiftLeft_eq]
    exact Nat.mul_mod_left _ _
  have hfloor : Double.floor (Double.ofInt k) = Double.ofInt k := by
    rw [hof]
    simp only [Double.floor]
    by_cases he : (0 : Int) ≤ (Double.bitLen k : Int) - 53
    · rw [if_pos he]
    · rw [if_neg he]
      have hsh : (-((Double.bitLen k : Int) - 53)).toNat = 53 - Double.bitLen k := by omega
      simp only [hsh, hshift, hmod, decide_True, Bool.not_true, Bool.and_false,
        Bool.false_eq_true, if_false, h0]
      rw [← hof]
      have hk0 : (k : Int) ≠ 0 := by exact_mod_cast h0
      have hneg : decide ((k : Int) < 0) = false := by simp
      simp [Double.ofInt, hk0, hneg]
  refine ⟨?_, ?_, ?_⟩
  · rw [hof, Bool.eq_false_iff, Ne, Double.lt_zero_iff]
    simp
  · rw [hfloor, hof, Double.ne, Double.eq_self_fin]
    rfl
  · rw [hof]
    simp only [Double.toInt]
    by_cases he : (0 : Int) ≤ (Double.bitLen k : Int) - 53
    · have hL : Double.bitLen k = 53 := by omega
      have hlo := (Double.bitLen_spec k h0).1
      rw [hL] at hlo
      simp only [hL, Nat.sub_self, Nat.shiftLeft_zero, Int.toNat_zero, Bool.false_eq_true, if_false,
        Nat.cast_ofNat, Int.sub_self, le_refl, if_true, Double.INT_MIN]
      rw [if_neg (by omega), if_neg (by omega)]
    · rw [if_neg he]
      have hsh : (-((Double.bitLen k : Int) - 53)).toNat = 53 - Double.bitLen k := by omega
      simp only [hsh, hshift, Bool.false_eq_true, if_false, Double.INT_MIN]
      by_cases h31 : k < 2 ^ 31
      · rw [if_pos (by omega), if_pos h31]
      · rw [if_neg (by omega), if_neg h31]

/-! ## The square root is correctly rounded -/

theorem Double.isqrtLoop_spec (n k r : Nat) (hlo : r * r ≤ n)
    (hhi : n < (r + 2 ^ k) * (r + 2 ^ k)) :
    Double.isqrtLoop n k r * Double.isqrtLoop n k r ≤ n ∧
    n < (Double.isqrtLoop n k r + 1) * (Double.isqrtLoop n k r + 1) := by
  induction k generalizing r with
  | zero => simpa [Double.isqrtLoop] using ⟨hlo, hhi⟩
  | succ k ih =>
    simp only [Double.isqrtLoop]
    by_cases hc : (r + 2 ^ k) * (r + 2 ^ k) ≤ n
    · rw [if_pos hc]
      refine ih (r + 2 ^ k) hc ?_
      have e : r + 2 ^ k + 2 ^ k = r + 2 ^ (k + 1) := by rw [pow_succ]; omega
      rw [e]
      exact hhi
    · rw [if_neg hc]
      exact ih r hlo (by omega)

theorem Double.isqrt_spec (n : Nat) :
    Double.isqrt n * Double.isqrt n ≤ n ∧ n < (Double.isqrt n + 1) * (Double.isqrt n + 1) := by
  refine Double.isqrtLoop_spec n _ 0 (Nat.zero_le _) ?_
  rw [Nat.zero_add, ← pow_add]
  rcases Nat.eq_zero_or_pos n with h0 | h0
  · subst h0
    exact Nat.pow_pos (by decide)
  · have h1 := (Double.bitLen_spec n (by omega)).2
    refine lt_of_lt_of_le h1 (Nat.pow_le_pow_right (by decide) ?_)
    omega

theorem Double.bracket_core (R big q P : Nat) (hlo : R * R ≤ big)
    (hhi : big < (R + 1) * (R + 1)) (h1 : (2 * q - 1) * P ≤ 2 * R)
    (h2 : 2 * (R + 1) ≤ (2 * q + 1) * P ∨ (big = R * R ∧ 2 * R = (2 * q + 1) * P)) :
    ((2 * q - 1) * P) ^ 2 ≤ 4 * big ∧ 4 * big ≤ ((2 * q + 1) * P) ^ 2 := by
  constructor
  · calc ((2 * q - 1) * P) ^ 2 ≤ (2 * R) ^ 2 := Nat.pow_le_pow_left h1 2
      _ = 4 * (R * R) := by ring
      _ ≤ 4 * big := by omega
  · rcases h2 with h2 | ⟨hb, h2⟩
    · calc 4 * big ≤ 4 * ((R + 1) * (R + 1)) := by omega
        _ = (2 * (R + 1)) ^ 2 := by ring
        _ ≤ ((2 * q + 1) * P) ^ 2 := Nat.pow_le_pow_left h2 2
    · rw [hb, ← h2]
      exact le_of_eq (by ring)

/-- Rounding the bracket `R ≤ √big < R + 1` (in units of `2^E`) with at
least 54 bits in `R` yields `q * 2^t` with `(q - 1/2) * 2^t ≤ √big * 2^E ≤
(q + 1/2) * 2^t`, stated with integers: `t = E + d` and
`((2q - 1) * 2^d)^2 ≤ 4 * big ≤ ((2q + 1) * 2^d)^2`. -/
theorem Double.round_bracket (R big q : Nat) (E t : Int) (hlen : 54 ≤ Double.bitLen R)
    (hlo : R * R ≤ big) (hhi : big < (R + 1) * (R + 1))
    (h : Double.round false R E (decide (R * R ≠ big)) = .fin false q t) :
    ∃ d : Nat, t = E + d ∧
      ((2 * q - 1) * 2 ^ d) ^ 2 ≤ 4 * big ∧ 4 * big ≤ ((2 * q + 1) * 2 ^ d) ^ 2 := by
  have hR0 : R ≠ 0 := by
    rintro rfl
    simp [Double.bitLen, Double.bitLenAux] at hlen
  have hnle : ¬max (E + (Double.bitLen R : Int) - 53) (-1074) ≤ E := by omega
  obtain ⟨sh, hsh⟩ : ∃ sh : Nat, (max (E + (Double.bitLen R : Int) - 53) (-1074) - E).toNat = sh + 1 :=
    ⟨(max (E + (Double.bitLen R : Int) - 53) (-1074) - E).toNat - 1, by omega⟩
  have ht0 : max (E + (Double.bitLen R : Int) - 53) (-1074) = E + ((sh + 1 : Nat) : Int) := by omega
  simp only [Double.round, hR0, if_false, hnle, hsh, Nat.add_sub_cancel] at h
  rw [ht0] at h
  set P := 2 ^ (sh + 1) with hP
  set Q := R >>> (sh + 1) with hQ
  set rem := R % P with hrem
  have hPhalf : P = 2 * 2 ^ sh := by rw [hP, pow_succ]; ring
  have hdecomp : R = Q * P + rem := by
    rw [hQ, hrem, Nat.shiftRight_eq_div_pow, ← hP]
    exact (Nat.div_add_mod' R P).symm
  have hremlt : rem < P := Nat.mod_lt _ (by rw [hP]; exact Nat.pow_pos (by decide))
  -- the rounded significand before renormalisation
  obtain ⟨q1, hq1, hb1, hb2⟩ : ∃ q1 : Nat,
      Double.pack false q1 (E + ((sh + 1 : Nat) : Int)) = .fin false q t ∧
      (2 * q1 - 1) * P ≤ 2 * R ∧
      (2 * (R + 1) ≤ (2 * q1 + 1) * P ∨ (big = R * R ∧ 2 * R = (2 * q1 + 1) * P)) := by
    by_cases hup : (decide (2 ^ sh < rem) || (decide (rem = 2 ^ sh) &&
        (decide (R * R ≠ big) || decide (Q % 2 = 1)))) = true
    · rw [if_pos hup] at h
      refine ⟨Q + 1, h, ?_, Or.inl ?_⟩
      · have hge : 2 ^ sh ≤ rem := by
          simp only [Bool.or_eq_true, Bool.and_eq_true, decide_eq_true_eq] at hup
          rcases hup with h1 | ⟨h1, _⟩ <;> omega
        have e1 : (2 * (Q + 1) - 1) * P = 2 * (Q * P) + P := by
          rw [show 2 * (Q + 1) - 1 = 2 * Q + 1 from by omega]
          ring
        rw [e1]
        omega
      · have e1 : (2 * (Q + 1) + 1) * P = 2 * (Q * P) + 3 * P := by ring
        rw [e1]
        omega
    · rw [if_neg hup] at h
      refine ⟨Q, h, ?_, ?_⟩
      · have e1 : (2 * Q - 1) * P ≤ 2 * Q * P := Nat.mul_le_mul_right _ (Nat.sub_le _ _)
        have e2 : 2 * Q * P = 2 * (Q * P) := by ring
        omega
      · have e1 : (2 * Q + 1) * P = 2 * (Q * P) + P := by ring
        rw [e1]
        simp only [Bool.or_eq_true, Bool.and_eq_true, decide_eq_true_eq, not_or, not_and,
          not_lt] at hup
        rcases Nat.lt_or_eq_of_le hup.1 with hlt | heq
        · left
          omega
        · right
          have hst := hup.2 heq
          refine ⟨?_, by omega⟩
          by_contra hne
          exact hst.1 (fun h0 => hne h0.symm)
  obtain ⟨c1, c2⟩ := Double.bracket_core R big q1 P hlo hhi hb1 hb2
  simp only [Double.pack] at hq1
  by_cases hren : q1 = 2 ^ 53
  · simp only [hren, if_true] at hq1
    split_ifs at hq1
    simp only [Double.fin.injEq, true_and] at hq1
    obtain ⟨hq, ht⟩ := hq1
    refine ⟨sh + 2, by omega, ?_, ?_⟩
    · refine le_trans (Nat.pow_le_pow_left ?_ 2) c1
      rw [← hq, hren, hP, show sh + 2 = (sh + 1) + 1 from rfl, pow_succ (2 : Nat) (sh + 1)]
      have : (2 * 2 ^ 52 - 1) * (2 ^ (sh + 1) * 2) = (2 * 2 ^ 53 - 2) * 2 ^ (sh + 1) := by
        rw [show 2 * 2 ^ 52 - 1 = 9007199254740991 from by norm_num,
          show 2 * 2 ^ 53 - 2 = 9007199254740991 * 2 from by norm_num]
        ring
      rw [this]
      exact Nat.mul_le_mul_right _ (by omega)
    · refine le_trans c2 (Nat.pow_le_pow_left ?_ 2)
      rw [← hq, hren, hP, show sh + 2 = (sh + 1) + 1 from rfl, pow_succ (2 : Nat) (sh + 1)]
      have : (2 * 2 ^ 52 + 1) * (2 ^ (sh + 1) * 2) = (2 * 2 ^ 53 + 2) * 2 ^ (sh + 1) := by ring
      rw [this]
      exact Nat.mul_le_mul_right _ (by omega)
  · simp only [hren, if_false] at hq1
    split_ifs at hq1
    simp only [Double.fin.injEq, true_and] at hq1
    obtain ⟨hq, ht⟩ := hq1
    subst hq
    exact ⟨sh + 1, by omega, c1, c2⟩

/-- The square root of a positive finite double is correctly rounded: if
`sqrt (m * 2^e) = q * 2^t` then `(q - 1/2) * 2^t ≤ √(m * 2^e) ≤ (q + 1/2) * 2^t`,
stated on the squares (and multiplied by 4; `2 * q - 1` is `0` when `q = 0`). -/
theorem Double.sqrt_bracket (m q : Nat) (e t : Int) (hm : m ≠ 0)
    (h : Double.sqrt (.fin false m e) = .fin false q t) :
    (((2 * q - 1 : Nat) : ℚ)) ^ 2 * (2 : ℚ) ^ (2 * t) ≤ 4 * (m : ℚ) * (2 : ℚ) ^ e ∧
    4 * (m : ℚ) * (2 : ℚ) ^ e ≤ (((2 * q + 1 : Nat) : ℚ)) ^ 2 * (2 : ℚ) ^ (2 * t) := by
  simp only [Double.sqrt, hm, if_false, Bool.false_eq_true] at h
  obtain ⟨s, hs, hpar⟩ : ∃ s : Nat,
      s = (if (e - ((130 - Double.bitLen m : Nat) : Int)) % 2 = 0 then 130 - Double.bitLen m
        else 130 - Double.bitLen m + 1) ∧ (e - (s : Int)) % 2 = 0 := by
    refine ⟨_, rfl, ?_⟩
    split_ifs with hp
    · exact hp
    · push_cast
      omega
  rw [← hs] at h
  obtain ⟨hlo, hhi⟩ := Double.isqrt_spec (m <<< s)
  have hbig : 2 ^ 129 ≤ m <<< s := by
    have hm1 := (Double.bitLen_spec m hm).1
    have hL1 : 1 ≤ Double.bitLen m := by
      rcases Nat.eq_zero_or_pos (Double.bitLen m) with hz | hz
      · have := (Double.bitLen_spec m hm).2
        rw [hz] at this
        omega
      · exact hz
    rw [Nat.shiftLeft_eq]
    have hs130 : 130 ≤ Double.bitLen m + s := by
      rw [hs]
      split_ifs <;> omega
    calc 2 ^ 129 ≤ 2 ^ (Double.bitLen m - 1 + s) := Nat.pow_le_pow_right (by decide) (by omega)
      _ = 2 ^ (Double.bitLen m - 1) * 2 ^ s := pow_add _ _ _
      _ ≤ m * 2 ^ s := Nat.mul_le_mul_right _ hm1
  have hlen : 54 ≤ Double.bitLen (Double.isqrt (m <<< s)) := by
    by_contra hcon
    have hR0 : Double.isqrt (m <<< s) ≠ 0 := by
      intro h0
      rw [h0] at hhi
      have : (2 : Nat) ^ 129 > 1 := by norm_num
      omega
    have h2 := (Double.bitLen_spec _ hR0).2
    have h3 : 2 ^ Double.bitLen (Double.isqrt (m <<< s)) ≤ 2 ^ 53 :=
      Nat.pow_le_pow_right (by decide) (by omega)
    have h4 : Double.isqrt (m <<< s) + 1 ≤ 2 ^ 53 := by omega
    have h5 : (Double.isqrt (m <<< s) + 1) * (Double.isqrt (m <<< s) + 1) ≤ 2 ^ 53 * 2 ^ 53 :=
      Nat.mul_le_mul h4 h4
    have h6 : (2 : Nat) ^ 53 * 2 ^ 53 < 2 ^ 129 := by norm_num
    omega
  obtain ⟨d, htd, c1, c2⟩ := Double.round_bracket _ (m <<< s) q ((e - (s : Int)) / 2) t hlen hlo hhi h
  obtain ⟨E, hE⟩ : ∃ E : Int, e - (s : Int) = 2 * E := ⟨(e - (s : Int)) / 2, by omega⟩
  have hEdiv : (e - (s : Int)) / 2 = E := by omega
  rw [hEdiv] at htd
  have he : e = (s : Int) + 2 * E := by omega
  have h2t : 2 * t = 2 * E + ((2 * d : Nat) : Int) := by
    push_cast
    omega
  have hpos : (0 : ℚ) < (2 : ℚ) ^ (2 * E) := zpow_pos (by norm_num) _
  have c1q : (((((2 * q - 1) * 2 ^ d) ^ 2 : Nat)) : ℚ) ≤ ((4 * (m <<< s) : Nat) : ℚ) := by
    exact_mod_cast c1
  have c2q : ((4 * (m <<< s) : Nat) : ℚ) ≤ (((((2 * q + 1) * 2 ^ d) ^ 2 : Nat)) : ℚ) := by
    exact_mod_cast c2
  have ebig : 4 * (m : ℚ) * (2 : ℚ) ^ e = ((4 * (m <<< s) : Nat) : ℚ) * (2 : ℚ) ^ (2 * E) := by
    rw [he, zpow_add₀ (by norm_num : (2 : ℚ) ≠ 0), zpow_natCast, Nat.shiftLeft_eq]
    push_cast
    ring
  have elo : (((2 * q - 1 : Nat) : ℚ)) ^ 2 * (2 : ℚ) ^ (2 * t) =
      (((((2 * q - 1) * 2 ^ d) ^ 2 : Nat)) : ℚ) * (2 : ℚ) ^ (2 * E) := by
    rw [h2t, zpow_add₀ (by norm_num : (2 : ℚ) ≠ 0), zpow_natCast]
    push_cast
    ring
  have ehi : (((2 * q + 1 : Nat) : ℚ)) ^ 2 * (2 : ℚ) ^ (2 * t) =
      (((((2 * q + 1) * 2 ^ d) ^ 2 : Nat)) : ℚ) * (2 : ℚ) ^ (2 * E) := by
    rw [h2t, zpow_add₀ (by norm_num : (2 : ℚ) ≠ 0), zpow_natCast]
    push_cast
    ring
  rw [ebig, elo, ehi]
  exact ⟨mul_le_mul_of_nonneg_right c1q hpos.le, mul_le_mul_of_nonneg_right c2q hpos.le⟩

theorem Double.bitLen_le (n k : Nat) (h : n < 2 ^ k) : Double.bitLen n ≤ k := by
  rcases Nat.eq_zero_or_pos n with h0 | h0
  · subst h0
    simp [Double.bitLen, Double.bitLenAux]
  · have h1 := (Double.bitLen_spec n (by omega)).1
    by_contra hcon
    have : 2 ^ k ≤ 2 ^ (Double.bitLen n - 1) := Nat.pow_le_pow_right (by decide) (by omega)
    omega

/-- Rounding a significand of at least 54 bits whose leading bit lands in the
normal range gives a finite normal double. -/
theorem Double.round_normal (R : Nat) (E : Int) (sticky : Bool)
    (hlen : 54 ≤ Double.bitLen R) (hlo : -1074 ≤ E + (Double.bitLen R : Int) - 53)
    (hhi : E + (Double.bitLen R : Int) - 53 < 971) :
    ∃ q t, Double.round false R E sticky = .fin false q t ∧
      2 ^ 52 ≤ q ∧ q < 2 ^ 53 ∧ -1074 ≤ t ∧ t ≤ 971 := by
  have hR0 : R ≠ 0 := by
    rintro rfl
    simp [Double.bitLen, Double.bitLenAux] at hlen
  obtain ⟨b1, b2⟩ := Double.bitLen_spec R hR0
  have ht0 : max (E + (Double.bitLen R : Int) - 53) (-1074) = E + (Double.bitLen R : Int) - 53 := by
    omega
  have hnle : ¬E + (Double.bitLen R : Int) - 53 ≤ E := by omega
  have hsh : (E + (Double.bitLen R : Int) - 53 - E).toNat = Double.bitLen R - 53 := by omega
  simp only [Double.round, hR0, if_false, ht0, hnle, hsh]
  have hsplit : Double.bitLen R - 1 = 52 + (Double.bitLen R - 53) := by omega
  have hsplit2 : Double.bitLen R = 53 + (Double.bitLen R - 53) := by omega
  have hpos : 0 < 2 ^ (Double.bitLen R - 53) := Nat.pow_pos (by decide)
  have hQlo : 2 ^ 52 ≤ R >>> (Double.bitLen R - 53) := by
    rw [Nat.shiftRight_eq_div_pow, Nat.le_div_iff_mul_le hpos, ← pow_add, ← hsplit]
    exact b1
  have hQhi : R >>> (Double.bitLen R - 53) < 2 ^ 53 := by
    rw [Nat.shiftRight_eq_div_pow, Nat.div_lt_iff_lt_mul hpos, ← pow_add, ← hsplit2]
    exact b2
  have hpack : ∀ q1 : Nat, 2 ^ 52 ≤ q1 → q1 ≤ 2 ^ 53 →
      ∃ q t, Double.pack false q1 (E + (Double.bitLen R : Int) - 53) = .fin false q t ∧
        2 ^ 52 ≤ q ∧ q < 2 ^ 53 ∧ -1074 ≤ t ∧ t ≤ 971 := by
    intro q1 h1 h2
    simp only [Double.pack]
    by_cases hq : q1 = 2 ^ 53
    · simp only [hq, if_true]
      rw [if_neg (by omega)]
      exact ⟨_, _, rfl, le_refl _, by norm_num, by omega, by omega⟩
    · simp only [hq, if_false]
      rw [if_neg (by omega)]
      exact ⟨_, _, rfl, h1, by omega, by omega, by omega⟩
  split_ifs
  · exact hpack _ (by omega) (by omega)
  · exact hpack _ hQlo (by omega)

/-- The square root of a positive finite double (`m < 2^53`,
`-1074 ≤ e ≤ 971`) is a finite normal double `q * 2^t`, `2^52 ≤ q < 2^53`,
within half a unit in the last place of the root:
`(q - 1/2) * 2^t ≤ √(m * 2^e) ≤ (q + 1/2) * 2^t`, stated on the squares and
multiplied by 4. -/
theorem Double.sqrt_correctly_rounded (m : Nat) (e : Int) (hm : m ≠ 0) (hm53 : m < 2 ^ 53)
    (helo : -1074 ≤ e) (hehi : e ≤ 971) :
    ∃ q t, Double.sqrt (.fin false m e) = .fin false q t ∧
      2 ^ 52 ≤ q ∧ q < 2 ^ 53 ∧ -1074 ≤ t ∧ t ≤ 971 ∧
      (((2 * q - 1 : Nat) : ℚ)) ^ 2 * (2 : ℚ) ^ (2 * t) ≤ 4 * (m : ℚ) * (2 : ℚ) ^ e ∧
      4 * (m : ℚ) * (2 : ℚ) ^ e ≤ (((2 * q + 1 : Nat) : ℚ)) ^ 2 * (2 : ℚ) ^ (2 * t) := by
  have hL53 : Double.bitLen m ≤ 53 := Double.bitLen_le m 53 hm53
  obtain ⟨hm1, hm2⟩ := Double.bitLen_spec m hm
  have hL1 : 1 ≤ Double.bitLen m := by
    rcases Nat.eq_zero_or_pos (Double.bitLen m) with hz | hz
    · rw [hz] at hm2
      omega
    · exact hz
  obtain ⟨s, hs, hs1, hs2⟩ : ∃ s : Nat,
      s = (if (e - ((130 - Double.bitLen m : Nat) : Int)) % 2 = 0 then 130 - Double.bitLen m
        else 130 - Double.bitLen m + 1) ∧
      130 ≤ Double.bitLen m + s ∧ Double.bitLen m + s ≤ 131 := by
    refine ⟨_, rfl, ?_, ?_⟩ <;> split_ifs <;> omega
  have hsq : Double.sqrt (.fin false m e) =
      Double.round false (Double.isqrt (m <<< s)) ((e - (s : Int)) / 2)
        (decide (Double.isqrt (m <<< s) * Double.isqrt (m <<< s) ≠ m <<< s)) := by
    simp only [Double.sqrt, hm, if_false, Bool.false_eq_true]
    rw [← hs]
  obtain ⟨hlo, hhi⟩ := Double.isqrt_spec (m <<< s)
  have hbig1 : 2 ^ 129 ≤ m <<< s := by
    rw [Nat.shiftLeft_eq]
    calc 2 ^ 129 ≤ 2 ^ (Double.bitLen m - 1 + s) := Nat.pow_le_pow_right (by decide) (by omega)
      _ = 2 ^ (Double.bitLen m - 1) * 2 ^ s := pow_add _ _ _
      _ ≤ m * 2 ^ s := Nat.mul_le_mul_right _ hm1
  have hbig2 : m <<< s < 2 ^ 132 := by
    rw [Nat.shiftLeft_eq]
    calc m * 2 ^ s < 2 ^ Double.bitLen m * 2 ^ s :=
          Nat.mul_lt_mul_of_pos_right hm2 (Nat.pow_pos (by decide))
      _ = 2 ^ (Double.bitLen m + s) := (pow_add _ _ _).symm
      _ ≤ 2 ^ 131 := Nat.pow_le_pow_right (by decide) hs2
      _ < 2 ^ 132 := by norm_num
  have hR0 : Double.isqrt (m <<< s) ≠ 0 := by
    intro h0
    rw [h0] at hhi
    have : (2 : Nat) ^ 129 > 1 := by norm_num
    omega
  have hlen1 : 54 ≤ Double.bitLen (Double.isqrt (m <<< s)) := by
    by_contra hcon
    have h2 := (Double.bitLen_spec _ hR0).2
    have h3 : 2 ^ Double.bitLen (Double.isqrt (m <<< s)) ≤ 2 ^ 53 :=
      Nat.pow_le_pow_right (by decide) (by omega)
    have h4 : Double.isqrt (m <<< s) + 1 ≤ 2 ^ 53 := by omega
    have h5 : (Double.isqrt (m <<< s) + 1) * (Double.isqrt (m <<< s) + 1) ≤ 2 ^ 53 * 2 ^ 53 :=
      Nat.mul_le_mul h4 h4
    have h6 : (2 : Nat) ^ 53 * 2 ^ 53 < 2 ^ 129 := by norm_num
    omega
  have hlen2 : Double.bitLen (Double.isqrt (m <<< s)) ≤ 66 := by
    apply Double.bitLen_le
    by_contra hcon
    have h4 : 2 ^ 66 ≤ Double.isqrt (m <<< s) := by omega
    have h5 : 2 ^ 66 * 2 ^ 66 ≤ Double.isqrt (m <<< s) * Double.isqrt (m <<< s) :=
      Nat.mul_le_mul h4 h4
    have h6 : (2 : Nat) ^ 66 * 2 ^ 66 = 2 ^ 132 := by norm_num
    omega
  obtain ⟨q, t, hr, q1, q2, t1, t2⟩ := Double.round_normal (Double.isqrt (m <<< s))
    ((e - (s : Int)) / 2)
    (decide (Double.isqrt (m <<< s) * Double.isqrt (m <<< s) ≠ m <<< s)) hlen1
    (by omega) (by omega)
  rw [← hsq] at hr
  exact ⟨q, t, hr, q1, q2, t1, t2, Double.sqrt_bracket m q e t hm hr⟩

theorem Double.le_zero_iff (a : Double) :
    Double.le Double.zero a = true ↔
      a = .inf false ∨ (∃ m e, a = .fin false m e) ∨ ∃ e, a = .fin true 0 e := by
  cases a with
  | nan => simp [Double.le, Double.lt, Double.eq, Double.zero]
  | inf n => cases n <;> simp [Double.le, Double.lt, Double.eq, Double.zero]
  | fin n m e =>
    have hsc : Double.scaled false 0 (-1074) (min (-1074) e) = 0 := by
      simp [Double.scaled]
    simp only [Double.le, Double.lt, Double.eq, Double.zero, hsc, Bool.or_eq_true,
      decide_eq_true_eq, Double.fin.injEq, reduceCtorEq, false_or]
    cases n with
    | false =>
      simp only [Double.scaled, Bool.false_eq_true, if_false]
      constructor
      · intro _
        exact Or.inl ⟨m, e, trivial, rfl, rfl⟩
      · intro _
        have := Int.ofNat_nonneg (m <<< (e - min (-1074) e).toNat)
        omega
    | true =>
      simp only [Double.scaled, if_true]
      constructor
      · intro h
        right
        refine ⟨e, trivial, ?_, rfl⟩
        by_contra hm
        have hpos : 0 < m <<< (e - min (-1074) e).toNat := by
          rw [Nat.shiftLeft_eq]
          exact Nat.mul_pos (Nat.pos_of_ne_zero hm) (Nat.pow_pos (by decide))
        omega
      · rintro (⟨m1, e1, hn, -, -⟩ | ⟨e1, -, hm, -⟩)
        · simp at hn
        · subst hm
          simp

/-- The square root of a value that is at least zero is at least zero. -/
theorem Double.sqrt_ge_zero (a : Double) (ha : Double.le Double.zero a = true) :
    Double.le Double.zero (Double.sqrt a) = true := by
  rw [Double.le_zero_iff] at ha ⊢
  rcases ha with rfl | ⟨m, e, rfl⟩ | ⟨e, rfl⟩
  · exact Or.inl rfl
  · simp only [Double.sqrt]
    by_cases hm : m = 0
    · rw [if_pos hm]
      exact Or.inr (Or.inl ⟨_, _, rfl⟩)
    · rw [if_neg hm, if_neg (by decide)]
      rcases Double.round_sign false _ _ _ with hr | ⟨q1, t1, hr⟩
      · exact Or.inl hr
      · exact Or.inr (Or.inl ⟨q1, t1, hr⟩)
  · simp only [Double.sqrt, if_true]
    exact Or.inr (Or.inr ⟨_, rfl⟩)

/-! ## The stack primitives and the operator dispatch -/

theorem bind_run {α β : Type} (m : Method α) (f : α → Method β) (c : RPNCalculator) :
    (m >>= f) c = match m c with
      | (.ok a, c1) => f a c1
      | (.error err, c1) => (.error err, c1) := rfl

theorem pop_snoc (rest : List Double) (b : Double) (h : List String) :
    pop ⟨rest ++ [b], h⟩ = (.ok b, ⟨rest, h⟩) := by
  simp [pop]

theorem pop_one (b : Double) (h : List String) :
    pop ⟨[b], h⟩ = (.ok b, ⟨[], h⟩) := by
  simp [pop]

theorem pop_two (rest : List Double) (a b : Double) (h : List String) :
    pop ⟨rest ++ [a, b], h⟩ = (.ok b, ⟨rest ++ [a], h⟩) := by
  have e : rest ++ [a, b] = (rest ++ [a]) ++ [b] := by simp
  rw [e, pop_snoc]

theorem pop_nil (h : List String) : pop ⟨[], h⟩ = (.error .EmptyStack, ⟨[], h⟩) := by
  simp [pop]

/-- A stack is empty, or has one element, or has two elements on top of some
rest. -/
theorem stack_cases (s : List Double) :
    s = [] ∨ (∃ a, s = [a]) ∨ ∃ rest a b, s = rest ++ [a, b] := by
  rcases List.eq_nil_or_concat s with h | ⟨s1, b, h⟩
  · exact Or.inl h
  · rcases List.eq_nil_or_concat s1 with h1 | ⟨s2, a, h1⟩
    · right; left; exact ⟨b, by simp [h, h1]⟩
    · right; right; exact ⟨s2, a, b, by simp [h, h1]⟩

theorem calculate_unknown (lib : CLib) (operation : String) (c : RPNCalculator)
    (h1 : operation ≠ "+") (h2 : operation ≠ "-") (h3 : operation ≠ "*")
    (h4 : operation ≠ "/") (h5 : operation ≠ "sqrt") (h6 : operation ≠ "^")
    (h7 : operation ≠ "fib") (h8 : operation ≠ "hist") :
    calculate lib operation c = (.error (.UnknownOperator operation), c) := by
  simp [calculate, h1, h2, h3, h4, h5, h6, h7, h8, Method.throw]

theorem calculate_hist (lib : CLib) (c : RPNCalculator) :
    calculate lib "hist" c = (.ok (), c) := by
  simp [calculate, Method.pure]

theorem calculate_add (lib : CLib) (rest : List Double) (a b : Double) (h : List String) :
    calculate lib "+" ⟨rest ++ [a, b], h⟩ = (.ok (), ⟨rest ++ [Double.add a b], h⟩) := by
  simp [calculate, bind_run, ensureSize, pop_two, pop_snoc, push]

theorem calculate_sub (lib : CLib) (rest : List Double) (a b : Double) (h : List String) :
    calculate lib "-" ⟨rest ++ [a, b], h⟩ = (.ok (), ⟨rest ++ [Double.sub a b], h⟩) := by
  simp [calculate, bind_run, ensureSize, pop_two, pop_snoc, push]

theorem calculate_mul (lib : CLib) (rest : List Double) (a b : Double) (h : List String) :
    calculate lib "*" ⟨rest ++ [a, b], h⟩ = (.ok (), ⟨rest ++ [Double.mul a b], h⟩) := by
  simp [calculate, bind_run, ensureSize, pop_two, pop_snoc, push]

theorem calculate_pow (lib : CLib) (rest : List Double) (a b : Double) (h : List String) :
    calculate lib "^" ⟨rest ++ [a, b], h⟩ = (.ok (), ⟨rest ++ [lib.pow a b], h⟩) := by
  simp [calculate, bind_run, ensureSize, pop_two, pop_snoc, push]

theorem calculate_div (lib : CLib) (rest : List Double) (a b : Double) (h : List String) :
    calculate lib "/" ⟨rest ++ [a, b], h⟩ =
      if Double.eq b Double.zero then (.error .DivideByZero, ⟨rest ++ [a, b], h⟩)
      else (.ok (), ⟨rest ++ [Double.div a b], h⟩) := by
  simp [calculate, bind_run, ensureSize, pop_two, pop_snoc, push]
  split_ifs <;> simp [bind_run, push, Method.throw]

theorem calculate_sqrt (lib : CLib) (rest : List Double) (a : Double) (h : List String) :
    calculate lib "sqrt" ⟨rest ++ [a], h⟩ =
      if Double.lt a Double.zero then (.error .NegativeSqrt, ⟨rest ++ [a], h⟩)
      else (.ok (), ⟨rest ++ [Double.sqrt a], h⟩) := by
  simp [calculate, bind_run, ensureSize, pop_snoc, push]
  split_ifs <;> simp [bind_run, push, Method.throw]

theorem calculate_fib (lib : CLib) (rest : List Double) (n : Double) (h : List String) :
    calculate lib "fib" ⟨rest ++ [n], h⟩ =
      if Double.lt n Double.zero || Double.ne (Double.floor n) n then
        (.error .InvalidFibInput, ⟨rest ++ [n], h⟩)
      else if Double.toInt n > 93 then (.error .FibOverflow, ⟨rest ++ [n], h⟩)
      else (.ok (), ⟨rest ++ [Double.ofInt (fibLoop (Double.toInt n).toNat 0 1)], h⟩) := by
  simp [calculate, bind_run, ensureSize, pop_snoc, push]
  split_ifs <;> simp [bind_run, push, Method.throw]

/-- What every branch of `calculate` has in common: the history is not
touched, a failing branch leaves the stack as it found it, the error is never
`EmptyStack`, and a successful branch leaves a non-empty stack non-empty. -/
theorem calculate_frame (lib : CLib) (operation : String) (c : RPNCalculator) :
    (calculate lib operation c).2.history_ = c.history_ ∧
    (∀ err, (calculate lib operation c).1 = .error err →
      (calculate lib operation c).2.stack_ = c.stack_ ∧ err ≠ .EmptyStack) ∧
    ((calculate lib operation c).1 = .ok () → c.stack_ ≠ [] →
      (calculate lib operation c).2.stack_ ≠ []) := by
  obtain ⟨s, h⟩ := c
  by_cases h0 : operation = "+"
  · subst h0
    rcases stack_cases s with rfl | ⟨a, rfl⟩ | ⟨rest, a, b, rfl⟩ <;>
      simp [calculate, bind_run, ensureSize, pop_two, pop_one, pop_nil, pop_snoc, push,
        Method.throw, Method.pure]
  by_cases h1 : operation = "-"
  · subst h1
    rcases stack_cases s with rfl | ⟨a, rfl⟩ | ⟨rest, a, b, rfl⟩ <;>
      simp [calculate, bind_run, ensureSize, pop_two, pop_one, pop_nil, pop_snoc, push,
        Method.throw, Method.pure]
  by_cases h2 : operation = "*"
  · subst h2
    rcases stack_cases s with rfl | ⟨a, rfl⟩ | ⟨rest, a, b, rfl⟩ <;>
      simp [calculate, bind_run, ensureSize, pop_two, pop_one, pop_nil, pop_snoc, push,
        Method.throw, Method.pure]
  by_cases h3 : operation = "/"
  · subst h3
    rcases stack_cases s with rfl | ⟨a, rfl⟩ | ⟨rest, a, b, rfl⟩ <;>
      simp [calculate, bind_run, ensureSize, pop_two, pop_one, pop_nil, pop_snoc, push,
        Method.throw, Method.pure]
    split_ifs <;> simp [bind_run, push, Method.throw]
  by_cases h4 : operation = "sqrt"
  · subst h4
    rcases stack_cases s with rfl | ⟨a, rfl⟩ | ⟨rest, a, b, rfl⟩ <;>
      simp [calculate, bind_run, ensureSize, pop_two, pop_one, pop_nil, pop_snoc, push,
        Method.throw, Method.pure] <;>
      split_ifs <;>
      simp [bind_run, push, Method.throw]
  by_cases h5 : operation = "^"
  · subst h5
    rcases stack_cases s with rfl | ⟨a, rfl⟩ | ⟨rest, a, b, rfl⟩ <;>
      simp [calculate, bind_run, ensureSize, pop_two, pop_one, pop_nil, pop_snoc, push,
        Method.throw, Method.pure]
  by_cases h6 : operation = "fib"
  · subst h6
    rcases stack_cases s with rfl | ⟨a, rfl⟩ | ⟨rest, a, b, rfl⟩ <;>
      simp [calculate, bind_run, ensureSize, pop_two, pop_one, pop_nil, pop_snoc, push,
        Method.throw, Method.pure] <;>
      split_ifs <;>
      simp [bind_run, push, Method.throw]
  by_cases h7 : operation = "hist"
  · subst h7
    rcases stack_cases s with rfl | ⟨a, rfl⟩ | ⟨rest, a, b, rfl⟩ <;>
      simp [calculate, bind_run, ensureSize, pop_two, pop_one, pop_nil, pop_snoc, push,
        Method.throw, Method.pure]
  rw [calculate_unknown lib operation _ h0 h1 h2 h3 h4 h5 h6 h7]
  simp

/-- The outcome and the stack effect of `calculate` do not depend on the
history. -/
theorem calculate_history_free (lib : CLib) (operation : String) (s : List Double)
    (h g : List String) :
    (calculate lib operation ⟨s, h⟩).1 = (calculate lib operation ⟨s, g⟩).1 ∧
    (calculate lib operation ⟨s, h⟩).2.stack_ = (calculate lib operation ⟨s, g⟩).2.stack_ := by
  by_cases h0 : operation = "+"
  · subst h0
    rcases stack_cases s with rfl | ⟨a, rfl⟩ | ⟨rest, a, b, rfl⟩ <;>
      simp [calculate, bind_run, ensureSize, pop_two, pop_one, pop_nil, pop_snoc, push,
        Method.throw, Method.pure]
  by_cases h1 : operation = "-"
  · subst h1
    rcases stack_cases s with rfl | ⟨a, rfl⟩ | ⟨rest, a, b, rfl⟩ <;>
      simp [calculate, bind_run, ensureSize, pop_two, pop_one, pop_nil, pop_snoc, push,
        Method.throw, Method.pure]
  by_cases h2 : operation = "*"
  · subst h2
    rcases stack_cases s with rfl | ⟨a, rfl⟩ | ⟨rest, a, b, rfl⟩ <;>
      simp [calculate, bind_run, ensureSize, pop_two, pop_one, pop_nil, pop_snoc, push,
        Method.throw, Method.pure]
  by_cases h3 : operation = "/"
  · subst h3
    rcases stack_cases s with rfl | ⟨a, rfl⟩ | ⟨rest, a, b, rfl⟩ <;>
      simp [calculate, bind_run, ensureSize, pop_two, pop_one, pop_nil, pop_snoc, push,
        Method.throw, Method.pure]
    split_ifs <;> simp [bind_run, push, Method.throw]
  by_cases h4 : operation = "sqrt"
  · subst h4
    rcases stack_cases s with rfl | ⟨a, rfl⟩ | ⟨rest, a, b, rfl⟩ <;>
      simp [calculate, bind_run, ensureSize, pop_two, pop_one, pop_nil, pop_snoc, push,
        Method.throw, Method.pure] <;>
      split_ifs <;>
      simp [bind_run, push, Method.throw]
  by_cases h5 : operation = "^"
  · subst h5
    rcases stack_cases s with rfl | ⟨a, rfl⟩ | ⟨rest, a, b, rfl⟩ <;>
      simp [calculate, bind_run, ensureSize, pop_two, pop_one, pop_nil, pop_snoc, push,
        Method.throw, Method.pure]
  by_cases h6 : operation = "fib"
  · subst h6
    rcases stack_cases s with rfl | ⟨a, rfl⟩ | ⟨rest, a, b, rfl⟩ <;>
      simp [calculate, bind_run, ensureSize, pop_two, pop_one, pop_nil, pop_snoc, push,
        Method.throw, Method.pure] <;>
      split_ifs <;>
      simp [bind_run, push, Method.throw]
  by_cases h7 : operation = "hist"
  · subst h7
    rcases stack_cases s with rfl | ⟨a, rfl⟩ | ⟨rest, a, b, rfl⟩ <;>
      simp [calculate, bind_run, ensureSize, pop_two, pop_one, pop_nil, pop_snoc, push,
        Method.throw, Method.pure]
  rw [calculate_unknown lib operation _ h0 h1 h2 h3 h4 h5 h6 h7,
    calculate_unknown lib operation _ h0 h1 h2 h3 h4 h5 h6 h7]
  simp

/-! ## The token loop -/

/-- One token: the history is kept, a non-empty stack stays non-empty on
success, and the bare-stack reading `applyToken` agrees with the method. -/
theorem processToken_frame (lib : CLib) (t : String) (c : RPNCalculator) :
    (processToken lib t c).2.history_ = c.history_ ∧
    ((processToken lib t c).1 = .ok () → c.stack_ ≠ [] →
      (processToken lib t c).2.stack_ ≠ []) ∧
    ((processToken lib t c).1 = .ok () →
      applyToken lib c.stack_ t = some (processToken lib t c).2.stack_) ∧
    (∀ err, (processToken lib t c).1 = .error err → applyToken lib c.stack_ t = none) := by
  obtain ⟨s, h⟩ := c
  unfold processToken applyToken
  by_cases hn : isNumber t = true
  · simp only [if_pos hn]
    cases stod t with
    | ok v => simp [push]
    | error e => simp [Method.throw]
  · simp only [if_neg hn]
    have hf := calculate_frame lib t ⟨s, h⟩
    have hh := calculate_history_free lib t s h []
    refine ⟨hf.1, hf.2.2, ?_, ?_⟩
    · intro hok
      rcases hc : calculate lib t ⟨s, []⟩ with ⟨r, c1⟩
      rw [hc] at hh
      rw [hok] at hh
      simp only at hh
      rw [← hh.1]
      simp [hh.2]
    · intro err herr
      rcases hc : calculate lib t ⟨s, []⟩ with ⟨r, c1⟩
      rw [hc] at hh
      rw [herr] at hh
      simp only at hh
      rw [← hh.1]

theorem processTokens_frame (lib : CLib) (ts : List String) (c : RPNCalculator) :
    (processTokens lib ts c).2.history_ = c.history_ ∧
    ((processTokens lib ts c).1 = .ok () → c.stack_ ≠ [] →
      (processTokens lib ts c).2.stack_ ≠ []) ∧
    ((processTokens lib ts c).1 = .ok () →
      foldTokens lib ts c.stack_ = some (processTokens lib ts c).2.stack_) ∧
    (∀ err, (processTokens lib ts c).1 = .error err → foldTokens lib ts c.stack_ = none) := by
  induction ts generalizing c with
  | nil => simp [processTokens, foldTokens, Method.pure]
  | cons t ts ih =>
    have ht := processToken_frame lib t c
    rcases hp : processToken lib t c with ⟨r, c1⟩
    rw [hp] at ht
    cases r with
    | error e =>
      have hnone := ht.2.2.2 e rfl
      simp [processTokens, Method.bind, hp, foldTokens, hnone]
      exact ht.1
    | ok u =>
      have hsome := ht.2.2.1 rfl
      have ih1 := ih c1
      simp only [processTokens, Method.bind, hp, foldTokens, hsome, Option.bind]
      refine ⟨ih1.1.trans ht.1, fun hok hne => ih1.2.1 hok (ht.2.1 rfl hne), ih1.2.2.1, ih1.2.2.2⟩

theorem processToken_literal (lib : CLib) (t : String) (v : Double) (c : RPNCalculator)
    (hn : isNumber t = true) (hs : stod t = .ok v) :
    processToken lib t c = (.ok (), ⟨c.stack_ ++ [v], c.history_⟩) := by
  simp [processToken, hn, hs, push]

theorem processToken_operator (lib : CLib) (t : String) (c : RPNCalculator)
    (hn : isNumber t = false) :
    processToken lib t c = calculate lib t c := by
  simp [processToken, hn]

/-- A literal pushed and the remaining tokens processed. -/
theorem processTokens_literal (lib : CLib) (t : String) (ts : List String) (v : Double)
    (c : RPNCalculator) (hn : isNumber t = true) (hs : stod t = .ok v) :
    processTokens lib (t :: ts) c = processTokens lib ts ⟨c.stack_ ++ [v], c.history_⟩ := by
  simp [processTokens, Method.bind, processToken_literal lib t v c hn hs]

/-- An operator applied and, if it succeeded, the remaining tokens processed. -/
theorem processTokens_operator (lib : CLib) (t : String) (ts : List String)
    (c : RPNCalculator) (hn : isNumber t = false) :
    processTokens lib (t :: ts) c =
      match calculate lib t c with
      | (.ok _, c1) => processTokens lib ts c1
      | (.error err, c1) => (.error err, c1) := by
  simp only [processTokens, Method.bind, processToken_operator lib t c hn]
  rcases calculate lib t c with ⟨r, c1⟩
  cases r <;> rfl

/-! ## `evaluate` -/

/-- The three ways `evaluate` can end, read off its definition: the loop
failed and the saved stack was put back; the loop succeeded on an empty stack;
or the loop succeeded and the top was recorded and returned. -/
theorem evaluate_cases (lib : CLib) (expr : String) (c : RPNCalculator) :
    (∃ err, (processTokens lib (tokenize expr) c).1 = .error err ∧
      evaluate lib expr c = (.error err, ⟨c.stack_, c.history_⟩)) ∨
    ((processTokens lib (tokenize expr) c).1 = .ok () ∧
      (processTokens lib (tokenize expr) c).2.stack_ = [] ∧
      evaluate lib expr c = (.error .EmptyResult, ⟨[], c.history_⟩)) ∨
    (∃ top, (processTokens lib (tokenize expr) c).1 = .ok () ∧
      (processTokens lib (tokenize expr) c).2.stack_.getLast? = some top ∧
      evaluate lib expr c =
        (.ok top, ⟨(processTokens lib (tokenize expr) c).2.stack_,
          c.history_ ++ [expr ++ " => " ++ lib.to_string top]⟩)) := by
  have hf := (processTokens_frame lib (tokenize expr) c).1
  rcases hp : processTokens lib (tokenize expr) c with ⟨r, c1⟩
  rw [hp] at hf
  simp only at hf
  cases r with
  | error e =>
    left
    exact ⟨e, rfl, by simp [evaluate, hp, hf]⟩
  | ok u =>
    right
    cases hl : c1.stack_.getLast? with
    | none =>
      left
      have hnil : c1.stack_ = [] := List.getLast?_eq_none_iff.mp hl
      refine ⟨rfl, hnil, ?_⟩
      simp only [evaluate, hp, hl]
      rw [← hf, ← hnil]
    | some top =>
      right
      refine ⟨top, rfl, rfl, ?_⟩
      simp only [evaluate, hp, hl]
      rw [← hf]

/-- `evaluate` once the outcome of the token loop is known. -/
theorem evaluate_of_loop (lib : CLib) (expr : String) (c c1 : RPNCalculator)
    (r : Except Error Unit) (hp : processTokens lib (tokenize expr) c = (r, c1)) :
    evaluate lib expr c =
      match r with
      | .error err => (.error err, ⟨c.stack_, c1.history_⟩)
      | .ok _ =>
        match c1.stack_.getLast? with
        | none => (.error .EmptyResult, c1)
        | some top =>
          (.ok top, ⟨c1.stack_, c1.history_ ++ [expr ++ " => " ++ lib.to_string top]⟩) := by
  simp only [evaluate, hp]
  cases r <;> rfl

theorem evaluate_history_step (lib : CLib) (expr : String) (c : RPNCalculator) :
    (evaluate lib expr c).2.history_ =
      match (evaluate lib expr c).1 with
      | .ok v => c.history_ ++ [expr ++ " => " ++ lib.to_string v]
      | .error _ => c.history_ := by
  rcases evaluate_cases lib expr c with ⟨e, _, he⟩ | ⟨_, _, he⟩ | ⟨top, _, _, he⟩ <;>
    rw [he]

theorem evaluateAll_history (lib : CLib) (es : List String) (c : RPNCalculator) :
    (evaluateAll lib es c).2.history_ =
      c.history_ ++ successEntries lib es (evaluateAll lib es c).1 ∧
    successCount (evaluateAll lib es c).1 =
      (successEntries lib es (evaluateAll lib es c).1).length := by
  induction es generalizing c with
  | nil => simp [evaluateAll, successEntries, successCount]
  | cons e es ih =>
    have hs := evaluate_history_step lib e c
    have ih1 := ih (evaluate lib e c).2
    simp only [evaluateAll]
    cases hr : (evaluate lib e c).1 with
    | ok v =>
      rw [hr] at hs
      simp only [successEntries, successCount, List.length_cons]
      rw [ih1.1, hs, ih1.2]
      simp
    | error err =>
      rw [hr] at hs
      simp only [successEntries, successCount]
      rw [ih1.1, hs, ih1.2]
      simp

theorem evaluate_five_five_add (lib : CLib) (h : List String) :
    evaluate lib "5 5 +" ⟨[], h⟩ =
      (.ok (Double.ofInt 10),
        ⟨[Double.ofInt 10], h ++ ["5 5 + => " ++ lib.to_string (Double.ofInt 10)]⟩) := by
  have h5 : stod "5" = .ok (Double.ofInt 5) := by decide
  have hadd : Double.add (Double.ofInt 5) (Double.ofInt 5) = Double.ofInt 10 := by decide
  have hp : processTokens lib (tokenize "5 5 +") ⟨[], h⟩ = (.ok (), ⟨[Double.ofInt 10], h⟩) := by
    rw [show tokenize "5 5 +" = ["5", "5", "+"] from by decide,
      processTokens_literal lib "5" _ _ _ (by decide) h5,
      processTokens_literal lib "5" _ _ _ (by decide) h5,
      processTokens_operator lib "+" _ _ (by decide)]
    have hc := calculate_add lib [] (Double.ofInt 5) (Double.ofInt 5) h
    simp only [List.nil_append, List.cons_append] at hc ⊢
    rw [hc, hadd]
    rfl
  rw [evaluate_of_loop lib _ _ _ _ hp]
  rfl

theorem evaluate_mul_instance (lib : CLib) (h : List String) :
    (evaluate lib "3.5 2.1 *" ⟨[], h⟩).1 = .ok (.fin false 8275364315293287 (-50)) := by
  have h1 : stod "3.5" = .ok (.fin false 7881299347898368 (-51)) := by decide
  have h2 : stod "2.1" = .ok (.fin false 4728779608739021 (-51)) := by decide
  have hm : Double.mul (.fin false 7881299347898368 (-51)) (.fin false 4728779608739021 (-51)) =
      .fin false 8275364315293287 (-50) := by decide
  have hp : processTokens lib (tokenize "3.5 2.1 *") ⟨[], h⟩ =
      (.ok (), ⟨[.fin false 8275364315293287 (-50)], h⟩) := by
    rw [show tokenize "3.5 2.1 *" = ["3.5", "2.1", "*"] from by decide,
      processTokens_literal lib "3.5" _ _ _ (by decide) h1,
      processTokens_literal lib "2.1" _ _ _ (by decide) h2,
      processTokens_operator lib "*" _ _ (by decide)]
    have hc := calculate_mul lib [] (.fin false 7881299347898368 (-51))
      (.fin false 4728779608739021 (-51)) h
    simp only [List.nil_append, List.cons_append] at hc ⊢
    rw [hc, hm]
    rfl
  rw [evaluate_of_loop lib _ _ _ _ hp]
  rfl

theorem evaluate_one_zero_div (lib : CLib) (h : List String) :
    evaluate lib "1 0 /" ⟨[], h⟩ = (.error .DivideByZero, ⟨[], h⟩) := by
  have h1 : stod "1" = .ok (Double.ofInt 1) := by decide
  have h0 : stod "0" = .ok Double.zero := by decide
  have hp : processTokens lib (tokenize "1 0 /") ⟨[], h⟩ =
      (.error .DivideByZero, ⟨[Double.ofInt 1, Double.zero], h⟩) := by
    rw [show tokenize "1 0 /" = ["1", "0", "/"] from by decide,
      processTokens_literal lib "1" _ _ _ (by decide) h1,
      processTokens_literal lib "0" _ _ _ (by decide) h0,
      processTokens_operator lib "/" _ _ (by decide)]
    have hc := calculate_div lib [] (Double.ofInt 1) Double.zero h
    rw [if_pos (by decide)] at hc
    simp only [List.nil_append, List.cons_append] at hc ⊢
    rw [hc]
  rw [evaluate_of_loop lib _ _ _ _ hp]

theorem evaluate_minus_one_sqrt (lib : CLib) (s : List Double) (h : List String) :
    evaluate lib "-1 sqrt" ⟨s, h⟩ = (.error .NegativeSqrt, ⟨s, h⟩) := by
  have h1 : stod "-1" = .ok (Double.ofInt (-1)) := by decide
  have hp : processTokens lib (tokenize "-1 sqrt") ⟨s, h⟩ =
      (.error .NegativeSqrt, ⟨s ++ [Double.ofInt (-1)], h⟩) := by
    rw [show tokenize "-1 sqrt" = ["-1", "sqrt"] from by decide,
      processTokens_literal lib "-1" _ _ _ (by decide) h1,
      processTokens_operator lib "sqrt" _ _ (by decide)]
    simp only []
    rw [calculate_sqrt, if_pos (by decide)]
  rw [evaluate_of_loop lib _ _ _ _ hp]

theorem evaluate_fib_literal (lib : CLib) (h : List String) (t : String) (n : Double)
    (hn : isNumber t = true) (hs : stod t = .ok n) :
    processTokens lib [t, "fib"] ⟨[], h⟩ =
      match calculate lib "fib" ⟨[] ++ [n], h⟩ with
      | (.ok _, c1) => (.ok (), c1)
      | (.error err, c1) => (.error err, c1) := by
  rw [processTokens_literal lib t _ _ _ hn hs,
    processTokens_operator lib "fib" _ _ (by decide)]
  rfl

/-! ## Fibonacci: the accepted range -/

/-- For every index up to 93 the operand passes the input checks, converts
to itself, and the loop leaves the 64-bit wrap of the Fibonacci number. -/
theorem fib_small_checks : ∀ k : Nat, k < 94 →
    Double.lt (Double.ofInt k) Double.zero = false ∧
    Double.ne (Double.floor (Double.ofInt k)) (Double.ofInt k) = false ∧
    Double.toInt (Double.ofInt k) = k ∧
    fibLoop k 0 1 = wrap64 (Nat.fib k) := by
  decide

/-- On an operand that is the integer `k ≤ 92`, `fib` leaves the `k`-th
Fibonacci number (as a double) in its place. -/
theorem fib_correct_below_93 (lib : CLib) (rest : List Double) (h : List String) (k : Nat)
    (hk : k ≤ 92) :
    calculate lib "fib" ⟨rest ++ [Double.ofInt k], h⟩ =
      (.ok (), ⟨rest ++ [Double.ofInt (Nat.fib k)], h⟩) := by
  obtain ⟨h1, h2, h3, h4⟩ := fib_small_checks k (by omega)
  have hw : ∀ j : Nat, j < 93 → wrap64 (Nat.fib j) = Nat.fib j := by decide
  rw [calculate_fib, h1, h2, h3]
  simp only [Bool.or_self, Bool.false_eq_true, if_false, Int.toNat_ofNat]
  rw [if_neg (by omega), h4, hw k (by omega)]

/-- Scope of the defect behind C8: an integer operand from 94 up to
`2^31 - 1` is rejected with `FibOverflow` and stays on the stack. -/
theorem fib_rejects_within_int (lib : CLib) (rest : List Double) (h : List String) (k : Nat)
    (h94 : 94 ≤ k) (hk : k < 2 ^ 31) :
    calculate lib "fib" ⟨rest ++ [Double.ofInt k], h⟩ =
      (.error .FibOverflow, ⟨rest ++ [Double.ofInt k], h⟩) := by
  obtain ⟨h1, h2, h3⟩ := Double.ofInt_checks k (by omega) (by omega)
  rw [calculate_fib, h1, h2, h3, if_pos hk]
  simp only [Bool.or_self, Bool.false_eq_true, if_false]
  rw [if_pos (by omega)]

/-- Scope of the defect behind C8: an integer operand from `2^31` up to
`2^53 - 1` is accepted and replaced by `0`. -/
theorem fib_accepts_beyond_int (lib : CLib) (rest : List Double) (h : List String) (k : Nat)
    (h31 : 2 ^ 31 ≤ k) (hk : k < 2 ^ 53) :
    calculate lib "fib" ⟨rest ++ [Double.ofInt k], h⟩ =
      (.ok (), ⟨rest ++ [Double.zero], h⟩) := by
  obtain ⟨h1, h2, h3⟩ := Double.ofInt_checks k (by omega) hk
  rw [calculate_fib, h1, h2, h3, if_neg (show ¬k < 2 ^ 31 from by omega)]
  simp only [Bool.or_self, Bool.false_eq_true, if_false]
  rw [if_neg (by decide)]
  rfl

/-! ## The literal grammar -/

/-- The loop of `isNumber` accepts exactly the strings of digits and dots
whose dots, together with one already seen if `hasDecimal`, number at most
one. -/
theorem isNumberLoop_iff (cs : List Char) (hasDecimal : Bool) :
    isNumberLoop cs hasDecimal = true ↔
      (∀ c ∈ cs, c.isDigit = true ∨ c = '.') ∧
      cs.count '.' + (if hasDecimal then 1 else 0) ≤ 1 := by
  induction cs generalizing hasDecimal with
  | nil => cases hasDecimal <;> simp [isNumberLoop]
  | cons c cs ih =>
    by_cases hc : c = '.'
    · subst hc
      cases hasDecimal with
      | true => simp [isNumberLoop]
      | false =>
        simp only [isNumberLoop, if_true, Bool.false_eq_true, if_false, ih true,
          List.count_cons_self, List.mem_cons, forall_eq_or_imp, or_true, true_and, add_zero]
    · by_cases hd : c.isDigit = true
      · simp only [isNumberLoop, hc, if_false, hd, Bool.not_true, Bool.false_eq_true, ih hasDecimal,
          List.mem_cons, forall_eq_or_imp, true_or, true_and]
        rw [List.count_cons_of_ne (Ne.symm hc)]
      · simp only [isNumberLoop, hc, if_false, hd, Bool.not_false, if_true, Bool.false_eq_true,
          List.mem_cons, forall_eq_or_imp, or_self, false_and]

/-! ## Arity -/

/-- An operator with too few operands fails with `InsufficientOperands`
before anything is popped; with enough operands it never fails that way. -/
theorem calculate_arity (lib : CLib) (operation : String) (k : Nat) (s : List Double)
    (h : List String) (hk : arity operation = some k) :
    ((calculate lib operation ⟨s, h⟩).1 = .error .InsufficientOperands ↔ s.length < k) ∧
    (s.length < k →
      calculate lib operation ⟨s, h⟩ = (.error .InsufficientOperands, ⟨s, h⟩)) := by
  unfold arity at hk
  split_ifs at hk with h2 h1
  · obtain rfl : k = 2 := by simpa using hk.symm
    rcases h2 with rfl | rfl | rfl | rfl | rfl <;>
      rcases stack_cases s with rfl | ⟨a, rfl⟩ | ⟨rest, a, b, rfl⟩ <;>
      simp [calculate, bind_run, ensureSize, pop_two, pop_one, pop_nil, pop_snoc, push,
        Method.throw, Method.pure]
    split_ifs <;> simp [bind_run, push, Method.throw]
  · obtain rfl : k = 1 := by simpa using hk.symm
    rcases h1 with rfl | rfl <;>
      rcases stack_cases s with rfl | ⟨a, rfl⟩ | ⟨rest, a, b, rfl⟩ <;>
      simp [calculate, bind_run, ensureSize, pop_two, pop_one, pop_nil, pop_snoc, push,
        Method.throw, Method.pure] <;>
      split_ifs <;> simp [bind_run, push, Method.throw]

/-- The errors `calculate` can raise, and its effect on the size of the
stack when it succeeds: a binary operator leaves one element fewer, every
other operator leaves the size as it was; on the empty stack only `hist`
succeeds. -/
theorem calculate_effect (lib : CLib) (operation : String) (s : List Double)
    (h : List String) :
    (∀ err, (calculate lib operation ⟨s, h⟩).1 = .error err →
      err = .InsufficientOperands ∨ err = .DivideByZero ∨ err = .NegativeSqrt ∨
      err = .InvalidFibInput ∨ err = .FibOverflow ∨ err = .UnknownOperator operation) ∧
    ((calculate lib operation ⟨s, h⟩).1 = .ok () →
      (calculate lib operation ⟨s, h⟩).2.stack_.length +
          (if operation = "+" ∨ operation = "-" ∨ operation = "*" ∨ operation = "/" ∨
            operation = "^" then 1 else 0) = s.length ∧
      (s = [] → operation = "hist")) := by
  by_cases h0 : operation = "+"
  · subst h0
    rcases stack_cases s with rfl | ⟨a, rfl⟩ | ⟨rest, a, b, rfl⟩ <;>
      simp [calculate, bind_run, ensureSize, pop_two, pop_one, pop_nil, pop_snoc, push,
        Method.throw, Method.pure]
  by_cases h1 : operation = "-"
  · subst h1
    rcases stack_cases s with rfl | ⟨a, rfl⟩ | ⟨rest, a, b, rfl⟩ <;>
      simp [calculate, bind_run, ensureSize, pop_two, pop_one, pop_nil, pop_snoc, push,
        Method.throw, Method.pure]
  by_cases h2 : operation = "*"
  · subst h2
    rcases stack_cases s with rfl | ⟨a, rfl⟩ | ⟨rest, a, b, rfl⟩ <;>
      simp [calculate, bind_run, ensureSize, pop_two, pop_one, pop_nil, pop_snoc, push,
        Method.throw, Method.pure]
  by_cases h3 : operation = "/"
  · subst h3
    rcases stack_cases s with rfl | ⟨a, rfl⟩ | ⟨rest, a, b, rfl⟩ <;>
      simp [calculate, bind_run, ensureSize, pop_two, pop_one, pop_nil, pop_snoc, push,
        Method.throw, Method.pure]
    split_ifs <;> simp [bind_run, push, Method.throw]
  by_cases h4 : operation = "sqrt"
  · subst h4
    rcases stack_cases s with rfl | ⟨a, rfl⟩ | ⟨rest, a, b, rfl⟩ <;>
      simp [calculate, bind_run, ensureSize, pop_two, pop_one, pop_nil, pop_snoc, push,
        Method.throw, Method.pure] <;>
      split_ifs <;>
      simp [bind_run, push, Method.throw]
  by_cases h5 : operation = "^"
  · subst h5
    rcases stack_cases s with rfl | ⟨a, rfl⟩ | ⟨rest, a, b, rfl⟩ <;>
      simp [calculate, bind_run, ensureSize, pop_two, pop_one, pop_nil, pop_snoc, push,
        Method.throw, Method.pure]
  by_cases h6 : operation = "fib"
  · subst h6
    rcases stack_cases s with rfl | ⟨a, rfl⟩ | ⟨rest, a, b, rfl⟩ <;>
      simp [calculate, bind_run, ensureSize, pop_two, pop_one, pop_nil, pop_snoc, push,
        Method.throw, Method.pure] <;>
      split_ifs <;>
      simp [bind_run, push, Method.throw]
  by_cases h7 : operation = "hist"
  · subst h7
    rcases stack_cases s with rfl | ⟨a, rfl⟩ | ⟨rest, a, b, rfl⟩ <;>
      simp [calculate, bind_run, ensureSize, pop_two, pop_one, pop_nil, pop_snoc, push,
        Method.throw, Method.pure]
  rw [calculate_unknown lib operation _ h0 h1 h2 h3 h4 h5 h6 h7]
  simp

/-! ## The per-operator restoration -/

/-- Without the manual restoration `calculate` raises the same error or
succeeds with the same state; only the stack left behind by a failure can
differ. -/
theorem calculateNoRestore_agrees (lib : CLib) (operation : String) (s : List Double)
    (h : List String) :
    (calculateNoRestore lib operation ⟨s, h⟩).1 = (calculate lib operation ⟨s, h⟩).1 ∧
    (calculateNoRestore lib operation ⟨s, h⟩).2.history_ =
      (calculate lib operation ⟨s, h⟩).2.history_ ∧
    ((calculate lib operation ⟨s, h⟩).1 = .ok () →
      calculateNoRestore lib operation ⟨s, h⟩ = calculate lib operation ⟨s, h⟩) := by
  by_cases h0 : operation = "+"
  · subst h0
    rcases stack_cases s with rfl | ⟨a, rfl⟩ | ⟨rest, a, b, rfl⟩ <;>
      simp [calculate, calculateNoRestore, bind_run, ensureSize, pop_two, pop_one, pop_nil,
        pop_snoc, push, Method.throw, Method.pure]
  by_cases h1 : operation = "-"
  · subst h1
    rcases stack_cases s with rfl | ⟨a, rfl⟩ | ⟨rest, a, b, rfl⟩ <;>
      simp [calculate, calculateNoRestore, bind_run, ensureSize, pop_two, pop_one, pop_nil,
        pop_snoc, push, Method.throw, Method.pure]
  by_cases h2 : operation = "*"
  · subst h2
    rcases stack_cases s with rfl | ⟨a, rfl⟩ | ⟨rest, a, b, rfl⟩ <;>
      simp [calculate, calculateNoRestore, bind_run, ensureSize, pop_two, pop_one, pop_nil,
        pop_snoc, push, Method.throw, Method.pure]
  by_cases h3 : operation = "/"
  · subst h3
    rcases stack_cases s with rfl | ⟨a, rfl⟩ | ⟨rest, a, b, rfl⟩ <;>
      simp [calculate, calculateNoRestore, bind_run, ensureSize, pop_two, pop_one, pop_nil,
        pop_snoc, push, Method.throw, Method.pure]
    split_ifs <;> simp [bind_run, push, Method.throw]
  by_cases h4 : operation = "sqrt"
  · subst h4
    rcases stack_cases s with rfl | ⟨a, rfl⟩ | ⟨rest, a, b, rfl⟩ <;>
      simp [calculate, calculateNoRestore, bind_run, ensureSize, pop_two, pop_one, pop_nil,
        pop_snoc, push, Method.throw, Method.pure] <;>
      split_ifs <;>
      simp [bind_run, push, Method.throw]
  by_cases h5 : operation = "^"
  · subst h5
    rcases stack_cases s with rfl | ⟨a, rfl⟩ | ⟨rest, a, b, rfl⟩ <;>
      simp [calculate, calculateNoRestore, bind_run, ensureSize, pop_two, pop_one, pop_nil,
        pop_snoc, push, Method.throw, Method.pure]
  by_cases h6 : operation = "fib"
  · subst h6
    rcases stack_cases s with rfl | ⟨a, rfl⟩ | ⟨rest, a, b, rfl⟩ <;>
      simp [calculate, calculateNoRestore, bind_run, ensureSize, pop_two, pop_one, pop_nil,
        pop_snoc, push, Method.throw, Method.pure] <;>
      split_ifs <;>
      simp [bind_run, push, Method.throw]
  by_cases h7 : operation = "hist"
  · subst h7
    rcases stack_cases s with rfl | ⟨a, rfl⟩ | ⟨rest, a, b, rfl⟩ <;>
      simp [calculate, calculateNoRestore, bind_run, ensureSize, pop_two, pop_one, pop_nil,
        pop_snoc, push, Method.throw, Method.pure]
  simp [calculate, calculateNoRestore, h0, h1, h2, h3, h4, h5, h6, h7, Method.throw]

theorem processTokensNoRestore_agrees (lib : CLib) (ts : List String) (c : RPNCalculator) :
    (processTokensNoRestore lib ts c).1 = (processTokens lib ts c).1 ∧
    (processTokensNoRestore lib ts c).2.history_ = (processTokens lib ts c).2.history_ ∧
    ((processTokens lib ts c).1 = .ok () →
      processTokensNoRestore lib ts c = processTokens lib ts c) := by
  induction ts generalizing c with
  | nil => simp [processTokens, processTokensNoRestore]
  | cons t ts ih =>
    obtain ⟨s, h⟩ := c
    simp only [processTokens, processTokensNoRestore, processToken, Method.bind]
    by_cases hn : isNumber t = true
    · simp only [if_pos hn]
      cases stod t with
      | error e => simp [Method.throw]
      | ok v =>
        simp only [push]
        exact ih _
    · simp only [if_neg hn]
      obtain ⟨a1, a2, a3⟩ := calculateNoRestore_agrees lib t s h
      rcases hc : calculate lib t ⟨s, h⟩ with ⟨r, c1⟩
      rcases hc2 : calculateNoRestore lib t ⟨s, h⟩ with ⟨r2, c2⟩
      rw [hc, hc2] at a1 a2 a3
      simp only at a1 a2 a3
      subst a1
      cases r2 with
      | error e => exact ⟨rfl, a2, fun hx => by simp at hx⟩
      | ok u =>
        have hcc : c2 = c1 := by
          have := a3 rfl
          simpa using this
        subst hcc
        exact ih _

/-! ## Tokenization -/

/-- A whitespace character ends the token being read and starts afresh. -/
theorem splitTokens_sep (xs ys cur : List Char) (c : Char) (hc : isSpace c = true) :
    splitTokens (xs ++ c :: ys) cur = splitTokens xs cur ++ splitTokens ys [] := by
  induction xs generalizing cur with
  | nil =>
    simp only [List.nil_append, splitTokens, hc, if_true]
    split_ifs <;> simp
  | cons x xs ih =>
    simp only [List.cons_append, splitTokens]
    split_ifs <;> simp [ih]

/-- Leading whitespace is skipped. -/
theorem splitTokens_blank_prefix (ws ys : List Char) (hws : ∀ c ∈ ws, isSpace c = true) :
    splitTokens (ws ++ ys) [] = splitTokens ys [] := by
  induction ws with
  | nil => rfl
  | cons w ws ih =>
    have hw : isSpace w = true := hws w (List.mem_cons_self _ _)
    simp only [List.cons_append, splitTokens, hw, if_true]
    exact ih (fun c hc => hws c (List.mem_cons_of_mem _ hc))

/-- A run without whitespace is one token. -/
theorem splitTokens_run (xs cur : List Char) (hxs : ∀ c ∈ xs, isSpace c = false) :
    splitTokens xs cur = if cur ++ xs = [] then [] else [String.mk (cur ++ xs)] := by
  induction xs generalizing cur with
  | nil => simp [splitTokens]
  | cons x xs ih =>
    have hx : isSpace x = false := hxs x (List.mem_cons_self _ _)
    simp only [splitTokens, hx, Bool.false_eq_true, if_false]
    rw [ih (cur ++ [x]) (fun c hc => hxs c (List.mem_cons_of_mem _ hc))]
    simp

/-- Two expressions separated by any non-empty run of whitespace tokenize to
the tokens of the first followed by the tokens of the second. -/
theorem tokenize_join (e1 e2 : String) (ws : List Char) (hne : ws ≠ [])
    (hws : ∀ c ∈ ws, isSpace c = true) :
    tokenize (e1 ++ String.mk ws ++ e2) = tokenize e1 ++ tokenize e2 := by
  obtain ⟨w, ws1, rfl⟩ := List.exists_cons_of_ne_nil hne
  have hw : isSpace w = true := hws w (List.mem_cons_self _ _)
  simp only [tokenize, String.data_append, List.append_assoc, List.cons_append]
  rw [splitTokens_sep _ _ _ _ hw,
    splitTokens_blank_prefix _ _ (fun c hc => hws c (List.mem_cons_of_mem _ hc))]

theorem isDigit_not_space (c : Char) (hc : c.isDigit = true) : isSpace c = false := by
  have h48 : 48 ≤ c.toNat := by
    simp only [Char.isDigit, Bool.and_eq_true, decide_eq_true_eq] at hc
    exact hc.1
  have hne : c ≠ ' ' := by
    rintro rfl
    exact absurd h48 (by decide)
  simp only [isSpace, hne, false_or, Bool.decide_eq_false, Bool.not_eq_true,
    decide_eq_false_iff_not, not_and, not_le]
  intro _
  omega

/-- A numeric literal contains no whitespace, so as an expression it is its
own single token. -/
theorem tokenize_literal (t : String) (hn : isNumber t = true) : tokenize t = [t] := by
  have hall : t.data ≠ [] ∧ ∀ c ∈ t.data, isSpace c = false := by
    unfold isNumber at hn
    cases hd : t.data with
    | nil => simp [hd] at hn
    | cons c0 rest =>
      rw [hd] at hn
      simp only at hn
      refine ⟨by simp, ?_⟩
      have hchar : ∀ c, (c.isDigit = true ∨ c = '.') → isSpace c = false := by
        rintro c (h1 | rfl)
        · exact isDigit_not_space c h1
        · decide
      by_cases hs : c0 = '+' ∨ c0 = '-'
      · rw [if_pos hs] at hn
        by_cases hr : rest = []
        · simp [hr] at hn
        · rw [if_neg hr, isNumberLoop_iff] at hn
          intro c hc
          rcases List.mem_cons.mp hc with rfl | hc1
          · rcases hs with rfl | rfl <;> decide
          · exact hchar c (hn.1 c hc1)
      · rw [if_neg hs, isNumberLoop_iff] at hn
        intro c hc
        exact hchar c (hn.1 c hc)
  simp only [tokenize]
  rw [splitTokens_run _ _ hall.2]
  simp [hall.1]

/-! ## The token loop over a concatenation, and the errors of `evaluate` -/

theorem processTokens_append (lib : CLib) (xs ys : List String) (c : RPNCalculator) :
    processTokens lib (xs ++ ys) c =
      match processTokens lib xs c with
      | (.ok _, c1) => processTokens lib ys c1
      | (.error err, c1) => (.error err, c1) := by
  induction xs generalizing c with
  | nil => simp [processTokens, Method.pure]
  | cons x xs ih =>
    simp only [List.cons_append, processTokens, Method.bind]
    rcases processToken lib x c with ⟨r, c1⟩
    cases r with
    | error e => rfl
    | ok u => exact ih c1

theorem stod_errors (t : String) (err : Error) (h : stod t = .error err) :
    err = .InvalidArgument ∨ err = .OutOfRange := by
  simp only [stod] at h
  split_ifs at h
  · simp only [Except.error.injEq] at h
    exact Or.inl h.symm
  · split at h
    · split_ifs at h
      simp only [Except.error.injEq] at h
      exact Or.inr h.symm
    · simp only [Except.error.injEq] at h
      exact Or.inr h.symm

/-- The errors the token loop can raise: those of `calculate` and those of
`std::stod`; never `EmptyStack` or `EmptyResult`. -/
theorem processTokens_errors (lib : CLib) (ts : List String) (c : RPNCalculator) (err : Error)
    (h : (processTokens lib ts c).1 = .error err) :
    err ≠ .EmptyStack ∧ err ≠ .EmptyResult := by
  induction ts generalizing c with
  | nil => simp [processTokens, Method.pure] at h
  | cons t ts ih =>
    simp only [processTokens, Method.bind] at h
    rcases hp : processToken lib t c with ⟨r, c1⟩
    rw [hp] at h
    cases r with
    | ok u => exact ih c1 h
    | error e =>
      simp only [Except.error.injEq] at h
      subst h
      obtain ⟨s, hh⟩ := c
      unfold processToken at hp
      by_cases hn : isNumber t = true
      · rw [if_pos hn] at hp
        cases hs : stod t with
        | ok v => simp [hs, push] at hp
        | error e1 =>
          rw [hs] at hp
          simp only [Method.throw, Prod.mk.injEq, Except.error.injEq] at hp
          rcases stod_errors t e1 hs with h1 | h1 <;> rw [← hp.1, h1] <;> simp
      · rw [if_neg hn] at hp
        have hc := (calculate_effect lib t s hh).1 e (by rw [hp])
        rcases hc with h1 | h1 | h1 | h1 | h1 | h1 <;> rw [h1] <;> simp

/-- A successful token loop that ends on the empty stack started on the empty
stack and saw only `hist` tokens. -/
theorem processTokens_empty (lib : CLib) (ts : List String) (c : RPNCalculator)
    (hok : (processTokens lib ts c).1 = .ok ())
    (hnil : (processTokens lib ts c).2.stack_ = []) :
    c.stack_ = [] ∧ ∀ t ∈ ts, t = "hist" := by
  induction ts generalizing c with
  | nil =>
    simp only [processTokens, Method.pure] at hnil
    simp [hnil]
  | cons t ts ih =>
    simp only [processTokens, Method.bind] at hok hnil
    rcases hp : processToken lib t c with ⟨r, c1⟩
    rw [hp] at hok hnil
    cases r with
    | error e => simp at hok
    | ok u =>
      obtain ⟨h1, h2⟩ := ih c1 hok hnil
      obtain ⟨s, hh⟩ := c
      unfold processToken at hp
      by_cases hn : isNumber t = true
      · rw [if_pos hn] at hp
        cases hs : stod t with
        | ok v =>
          rw [hs] at hp
          simp only [push, Prod.mk.injEq, true_and] at hp
          rw [← hp] at h1
          simp at h1
        | error e1 =>
          rw [hs] at hp
          simp [Method.throw] at hp
      · rw [if_neg hn] at hp
        have hf := (calculate_frame lib t ⟨s, hh⟩).2.2 (by rw [hp])
        have he := (calculate_effect lib t s hh).2 (by rw [hp])
        rw [hp] at hf
        have hs0 : s = [] := by
          by_contra hne
          exact hf hne h1
        refine ⟨hs0, ?_⟩
        intro t1 ht1
        rcases List.mem_cons.mp ht1 with rfl | ht1
        · exact he.2 hs0
        · exact h2 t1 ht1

/-- On the empty stack a loop of `hist` tokens succeeds and changes nothing. -/
theorem processTokens_hist (lib : CLib) (ts : List String) (c : RPNCalculator)
    (hall : ∀ t ∈ ts, t = "hist") :
    processTokens lib ts c = (.ok (), c) := by
  induction ts generalizing c with
  | nil => rfl
  | cons t ts ih =>
    obtain rfl : t = "hist" := hall t (List.mem_cons_self _ _)
    rw [processTokens_operator lib "hist" ts c (by decide), calculate_hist]
    exact ih c (fun t1 h1 => hall t1 (List.mem_cons_of_mem _ h1))

/-- The outcome and the stack of `evaluate` depend on the expression only
through its tokens. -/
theorem evaluate_tokens (lib : CLib) (e1 e2 : String) (c : RPNCalculator)
    (h : tokenize e1 = tokenize e2) :
    (evaluate lib e1 c).1 = (evaluate lib e2 c).1 ∧
    (evaluate lib e1 c).2.stack_ = (evaluate lib e2 c).2.stack_ := by
  simp only [evaluate, h]
  rcases processTokens lib (tokenize e2) c with ⟨r, c1⟩
  cases r with
  | error e => exact ⟨rfl, rfl⟩
  | ok u =>
    simp only
    cases c1.stack_.getLast? <;> exact ⟨rfl, rfl⟩

theorem foldTokens_append (lib : CLib) (xs ys : List String) (s : List Double) :
    foldTokens lib (xs ++ ys) s = (foldTokens lib xs s).bind (foldTokens lib ys) := by
  induction xs generalizing s with
  | nil => rfl
  | cons x xs ih =>
    simp only [List.cons_append, foldTokens]
    cases applyToken lib s x with
    | none => rfl
    | some s1 => exact ih s1

/-- `evaluate` succeeds exactly when the tokens fold to a non-empty stack; it
then returns the top of that stack, keeps it, and records the call. -/
theorem evaluate_ok_iff_fold (lib : CLib) (expr : String) (c c1 : RPNCalculator) (v : Double) :
    evaluate lib expr c = (.ok v, c1) ↔
      ∃ st, foldTokens lib (tokenize expr) c.stack_ = some st ∧ st.getLast? = some v ∧
        c1 = ⟨st, c.history_ ++ [expr ++ " => " ++ lib.to_string v]⟩ := by
  have hf := processTokens_frame lib (tokenize expr) c
  rcases evaluate_cases lib expr c with ⟨e, herr, he⟩ | ⟨hok, hnil, he⟩ | ⟨top, hok, hl, he⟩
  · rw [he]
    have hnone := hf.2.2.2 e herr
    simp [hnone]
  · rw [he]
    have hsome := hf.2.2.1 hok
    rw [hnil] at hsome
    simp [hsome]
  · rw [he]
    have hsome := hf.2.2.1 hok
    constructor
    · intro h
      simp only [Prod.mk.injEq, Except.ok.injEq] at h
      obtain ⟨hv, hc⟩ := h
      subst hv
      exact ⟨_, hsome, hl, hc.symm⟩
    · rintro ⟨st, h1, h2, h3⟩
      rw [hsome] at h1
      simp only [Option.some.injEq] at h1
      subst h1
      rw [hl] at h2
      simp only [Option.some.injEq] at h2
      subst h2
      rw [h3]

/-- A literal token that `std::stod` rejects ends the loop with that error. -/
theorem processTokens_literal_fail (lib : CLib) (t : String) (ts : List String) (err : Error)
    (c : RPNCalculator) (hn : isNumber t = true) (hs : stod t = .error err) :
    processTokens lib (t :: ts) c = (.error err, c) := by
  simp [processTokens, Method.bind, processToken, hn, hs, Method.throw]

/-- A literal that `std::stod` accepts, evaluated on its own: it is pushed,
returned and recorded. -/
theorem evaluate_literal (lib : CLib) (t : String) (v : Double) (s : List Double)
    (h : List String) (hn : isNumber t = true) (hs : stod t = .ok v) :
    evaluate lib t ⟨s, h⟩ = (.ok v, ⟨s ++ [v], h ++ [t ++ " => " ++ lib.to_string v]⟩) := by
  have hp : processTokens lib (tokenize t) ⟨s, h⟩ = (.ok (), ⟨s ++ [v], h⟩) := by
    rw [tokenize_literal t hn, processTokens_literal lib t [] v _ hn hs]
    rfl
  rw [evaluate_of_loop lib _ _ _ _ hp]
  simp

/-- One token changes the size of the stack by `+1` (literal), `-1` (binary
operator) or `0` (`sqrt`, `fib`, `hist`). -/
theorem processTokens_length (lib : CLib) (ts : List String) (c : RPNCalculator)
    (hok : (processTokens lib ts c).1 = .ok ()) :
    (processTokens lib ts c).2.stack_.length + countBinary ts =
      c.stack_.length + countLiterals ts := by
  induction ts generalizing c with
  | nil => simp [processTokens, Method.pure, countBinary, countLiterals]
  | cons t ts ih =>
    simp only [processTokens, Method.bind] at hok ⊢
    rcases hp : processToken lib t c with ⟨r, c1⟩
    rw [hp] at hok
    cases r with
    | error e => simp at hok
    | ok u =>
      have ih1 := ih c1 hok
      simp only at ih1 ⊢
      obtain ⟨s, hh⟩ := c
      unfold processToken at hp
      by_cases hn : isNumber t = true
      · have hnb : ¬(t = "+" ∨ t = "-" ∨ t = "*" ∨ t = "/" ∨ t = "^") := by
          rintro (rfl | rfl | rfl | rfl | rfl) <;> exact absurd hn (by decide)
        rw [if_pos hn] at hp
        cases hs : stod t with
        | error e1 =>
          rw [hs] at hp
          simp [Method.throw] at hp
        | ok v =>
          rw [hs] at hp
          simp only [push, Prod.mk.injEq, true_and] at hp
          subst hp
          simp only [countBinary, countLiterals, List.countP_cons, hn, hnb, decide_False,
            Bool.false_eq_true, if_false, if_true, List.length_append, List.length_singleton]
            at ih1 ⊢
          omega
      · rw [if_neg hn] at hp
        have he := ((calculate_effect lib t s hh).2 (by rw [hp])).1
        rw [hp] at he
        simp only [countBinary, countLiterals, List.countP_cons, hn, Bool.false_eq_true,
          if_false] at ih1 ⊢
        by_cases hb : t = "+" ∨ t = "-" ∨ t = "*" ∨ t = "/" ∨ t = "^"
        · simp only [hb, if_true, decide_True] at he ⊢
          omega
        · simp only [hb, if_false, decide_False, Bool.false_eq_true] at he ⊢
          omega

set_option exponentiation.threshold 2000 in
/-- The 310-digit literal `10^309` is beyond the range of `double`. -/
theorem stod_tenTo309 : isNumber tenTo309 = true ∧ stod tenTo309 = .error .OutOfRange := by
  decide

/-! ## The claims -/

/-- C1. Atomicity of `evaluate`: whenever the call fails, with whatever
error (an operator, arity or domain error, an unknown operator, a literal
`std::stod` rejects, or `EmptyResult` after all tokens were processed), the
stack after the call equals the stack before it, element for element. -/
theorem evaluate_atomic (lib : CLib) (expr : String) (c : RPNCalculator) (err : Error)
    (h : (evaluate lib expr c).1 = .error err) :
    (evaluate lib expr c).2.stack_ = c.stack_ := by
  rcases evaluate_cases lib expr c with ⟨e, _, he⟩ | ⟨hok, hnil, he⟩ | ⟨top, _, _, he⟩
  · rw [he]
  · rw [he]
    by_contra hne
    have hc : c.stack_ ≠ [] := fun h0 => hne (by simp [h0])
    exact (processTokens_frame lib (tokenize expr) c).2.1 hok hc hnil
  · rw [he] at h
    simp at h

/-- Witness for C1: `7 0 /` fails with `DivideByZero` on the stack `[5]` and
leaves `[5]`. -/
theorem evaluate_atomic_witness :
    (evaluate refLib "7 0 /" ⟨[Double.ofInt 5], []⟩).1 = .error .DivideByZero ∧
    (evaluate refLib "7 0 /" ⟨[Double.ofInt 5], []⟩).2.stack_ = [Double.ofInt 5] :=
  ⟨by decide, evaluate_atomic refLib "7 0 /" ⟨[Double.ofInt 5], []⟩ .DivideByZero (by decide)⟩

/-- C2. A successful `evaluate` is not rolled back and returns the top: the
stack after the call is the one obtained by applying the tokens left to right
to the stack before the call (push for a literal, operator step otherwise),
it is non-empty, and the returned value is its last element. -/
theorem evaluate_success (lib : CLib) (expr : String) (c c1 : RPNCalculator) (v : Double)
    (h : evaluate lib expr c = (.ok v, c1)) :
    foldTokens lib (tokenize expr) c.stack_ = some c1.stack_ ∧
    c1.stack_ ≠ [] ∧ c1.stack_.getLast? = some v := by
  rcases evaluate_cases lib expr c with ⟨e, _, he⟩ | ⟨_, _, he⟩ | ⟨top, hok, hl, he⟩
  · rw [he] at h
    simp at h
  · rw [he] at h
    simp at h
  · rw [he] at h
    simp only [Prod.mk.injEq, Except.ok.injEq] at h
    obtain ⟨hv, hc⟩ := h
    subst hc
    subst hv
    refine ⟨(processTokens_frame lib (tokenize expr) c).2.2.1 hok, ?_, hl⟩
    intro hnil
    rw [hnil] at hl
    simp at hl

/-- Witness for C2: `2 3 +` on the stack `[1]` leaves `[1, 5]` and returns
`5`. -/
theorem evaluate_success_witness :
    foldTokens refLib (tokenize "2 3 +") [Double.ofInt 1] =
      some [Double.ofInt 1, Double.ofInt 5] ∧
    [Double.ofInt 1, Double.ofInt 5] ≠ [] ∧
    [Double.ofInt 1, Double.ofInt 5].getLast? = some (Double.ofInt 5) :=
  evaluate_success refLib "2 3 +" ⟨[Double.ofInt 1], []⟩
    ⟨[Double.ofInt 1, Double.ofInt 5], ["2 3 + => 5.000000"]⟩ (Double.ofInt 5) (by decide)

/-- C3. The history is append-only and tracks successes exactly: a
successful `evaluate` appends one entry, the expression text followed by
`" => "` and the formatted returned value; a failed one leaves the history as
it was; so after any sequence of calls the history is the old one followed by
one entry per successful call, in call order, and its length grew by the
number of successful calls.  On the empty stack `5 5 +` succeeds and appends
`5 5 + => 10`, `1 0 /` fails and appends nothing, and the two calls in a row
leave exactly the one entry. -/
theorem history_tracks_successes (lib : CLib) (c : RPNCalculator) :
    (∀ expr, (evaluate lib expr c).2.history_ =
      match (evaluate lib expr c).1 with
      | .ok v => c.history_ ++ [expr ++ " => " ++ lib.to_string v]
      | .error _ => c.history_) ∧
    (∀ expr v c1, evaluate lib expr c = (.ok v, c1) →
      c1.history_ = c.history_ ++ [expr ++ " => " ++ lib.to_string v]) ∧
    (∀ expr err c1, evaluate lib expr c = (.error err, c1) → c1.history_ = c.history_) ∧
    (∀ es, (evaluateAll lib es c).2.history_ =
        c.history_ ++ successEntries lib es (evaluateAll lib es c).1 ∧
      (evaluateAll lib es c).2.history_.length =
        c.history_.length + successCount (evaluateAll lib es c).1) ∧
    evaluate lib "5 5 +" ⟨[], c.history_⟩ =
      (.ok (Double.ofInt 10),
        ⟨[Double.ofInt 10], c.history_ ++ ["5 5 + => " ++ lib.to_string (Double.ofInt 10)]⟩) ∧
    evaluate lib "1 0 /" ⟨[], c.history_⟩ = (.error .DivideByZero, ⟨[], c.history_⟩) ∧
    evaluateAll lib ["1 0 /", "5 5 +"] ⟨[], c.history_⟩ =
      ([.error .DivideByZero, .ok (Double.ofInt 10)],
        ⟨[Double.ofInt 10], c.history_ ++ ["5 5 + => " ++ lib.to_string (Double.ofInt 10)]⟩) := by
  have hstep := fun expr => evaluate_history_step lib expr c
  refine ⟨hstep, ?_, ?_, fun es => ?_, evaluate_five_five_add lib c.history_,
    evaluate_one_zero_div lib c.history_, ?_⟩
  · intro expr v c1 h
    have := hstep expr
    rw [h] at this
    exact this
  · intro expr err c1 h
    have := hstep expr
    rw [h] at this
    exact this
  · have h := evaluateAll_history lib es c
    refine ⟨h.1, ?_⟩
    rw [h.1, h.2]
    simp
  · simp only [evaluateAll, evaluate_one_zero_div lib c.history_,
      evaluate_five_five_add lib c.history_]

/-- Witness for C3: `2 3 +` on the stack `[1]` succeeds with `5` and the
history `[]` becomes `["2 3 + => 5.000000"]`; `7 0 /` on `[5]` fails and the
history `["x"]` stays. -/
theorem history_tracks_successes_witness :
    (⟨[Double.ofInt 1, Double.ofInt 5], ["2 3 + => 5.000000"]⟩ : RPNCalculator).history_ =
      (⟨[Double.ofInt 1], []⟩ : RPNCalculator).history_ ++
        ["2 3 +" ++ " => " ++ refLib.to_string (Double.ofInt 5)] ∧
    (⟨[Double.ofInt 5], ["x"]⟩ : RPNCalculator).history_ =
      (⟨[Double.ofInt 5], ["x"]⟩ : RPNCalculator).history_ ∧
    ["2 3 +" ++ " => " ++ refLib.to_string (Double.ofInt 5)] = ["2 3 + => 5.000000"] :=
  ⟨(history_tracks_successes refLib ⟨[Double.ofInt 1], []⟩).2.1 "2 3 +" (Double.ofInt 5)
      ⟨[Double.ofInt 1, Double.ofInt 5], ["2 3 + => 5.000000"]⟩ (by decide),
   (history_tracks_successes refLib ⟨[Double.ofInt 5], ["x"]⟩).2.2.1 "7 0 /" .DivideByZero
      ⟨[Double.ofInt 5], ["x"]⟩ (by decide),
   by decide⟩

/-- Rounding in `3.5 2.1 *`: the returned double is
`8275364315293287 * 2^-50`, one unit in the last place above the double the
literal `7.35` denotes and not exactly 735/100, so the result is 7.35 within
floating-point tolerance, not bit for bit. -/
theorem mul_instance_is_not_7_35 :
    (evaluate refLib "3.5 2.1 *" fresh).1 = .ok (.fin false 8275364315293287 (-50)) ∧
    (evaluate refLib "3.5 2.1 *" fresh).1 ≠ stod "7.35" ∧
    Double.exactQ 735 100 8275364315293287 (-50) = false := by
  refine ⟨evaluate_mul_instance refLib [], ?_, by decide⟩
  rw [show fresh = ⟨[], []⟩ from rfl, evaluate_mul_instance refLib []]
  decide

/-- C4. The binary operators `+ - * ^` take the top of the stack as the
right operand: on `rest ++ [a, b]` each of them succeeds and leaves
`rest ++ [a op b]`.  `5 5 +` on the empty stack returns 10 and leaves `[10]`;
`3.5 2.1 *` returns 7.35 within floating-point tolerance: the returned
double, `8275364315293287 * 2^-50`, is within `2^-50` of 7.35. -/
theorem binary_operators (lib : CLib) (rest : List Double) (a b : Double) (h : List String) :
    calculate lib "+" ⟨rest ++ [a, b], h⟩ = (.ok (), ⟨rest ++ [Double.add a b], h⟩) ∧
    calculate lib "-" ⟨rest ++ [a, b], h⟩ = (.ok (), ⟨rest ++ [Double.sub a b], h⟩) ∧
    calculate lib "*" ⟨rest ++ [a, b], h⟩ = (.ok (), ⟨rest ++ [Double.mul a b], h⟩) ∧
    calculate lib "^" ⟨rest ++ [a, b], h⟩ = (.ok (), ⟨rest ++ [lib.pow a b], h⟩) ∧
    (evaluate lib "5 5 +" ⟨[], h⟩).1 = .ok (Double.ofInt 10) ∧
    (evaluate lib "5 5 +" ⟨[], h⟩).2.stack_ = [Double.ofInt 10] ∧
    (evaluate lib "3.5 2.1 *" ⟨[], h⟩).1 = .ok (.fin false 8275364315293287 (-50)) ∧
    Double.within (.fin false 8275364315293287 (-50)) 735 100 50 = true := by
  refine ⟨calculate_add lib rest a b h, calculate_sub lib rest a b h,
    calculate_mul lib rest a b h, calculate_pow lib rest a b h, ?_, ?_,
    evaluate_mul_instance lib h, by decide⟩
  · rw [evaluate_five_five_add]
  · rw [evaluate_five_five_add]

/-- C5. Division on `rest ++ [a, b]` fails with `DivideByZero` exactly when
`b == 0` (that is, `b` is `+0` or `-0`); it then leaves `rest ++ [a, b]`, and
otherwise leaves `rest ++ [a / b]`.  `1 0 /` on the empty stack fails with
`DivideByZero` and the stack is still empty. -/
theorem division (lib : CLib) (rest : List Double) (a b : Double) (h : List String) :
    ((calculate lib "/" ⟨rest ++ [a, b], h⟩).1 = .error .DivideByZero ↔
      Double.eq b Double.zero = true) ∧
    (Double.eq b Double.zero = true ↔ ∃ n e, b = .fin n 0 e) ∧
    (Double.eq b Double.zero = true →
      calculate lib "/" ⟨rest ++ [a, b], h⟩ = (.error .DivideByZero, ⟨rest ++ [a, b], h⟩)) ∧
    (Double.eq b Double.zero = false →
      calculate lib "/" ⟨rest ++ [a, b], h⟩ = (.ok (), ⟨rest ++ [Double.div a b], h⟩)) ∧
    evaluate lib "1 0 /" ⟨[], h⟩ = (.error .DivideByZero, ⟨[], h⟩) := by
  refine ⟨?_, Double.eq_zero_iff b, ?_, ?_, evaluate_one_zero_div lib h⟩
  · rw [calculate_div]
    by_cases hb : Double.eq b Double.zero = true <;> simp [hb]
  · intro hb
    rw [calculate_div, if_pos hb]
  · intro hb
    rw [calculate_div, if_neg (by simp [hb])]

/-- Witness for C5: `6 / 0` on the stack `[9, 6, 0]` fails and leaves it,
`6 / 3` on `[9, 6, 3]` leaves `[9, 2]`. -/
theorem division_witness :
    calculate refLib "/" ⟨[Double.ofInt 9] ++ [Double.ofInt 6, Double.zero], []⟩ =
      (.error .DivideByZero, ⟨[Double.ofInt 9] ++ [Double.ofInt 6, Double.zero], []⟩) ∧
    calculate refLib "/" ⟨[Double.ofInt 9] ++ [Double.ofInt 6, Double.ofInt 3], []⟩ =
      (.ok (), ⟨[Double.ofInt 9] ++ [Double.div (Double.ofInt 6) (Double.ofInt 3)], []⟩) ∧
    Double.div (Double.ofInt 6) (Double.ofInt 3) = Double.ofInt 2 :=
  ⟨(division refLib [Double.ofInt 9] (Double.ofInt 6) Double.zero []).2.2.1 (by decide),
   (division refLib [Double.ofInt 9] (Double.ofInt 6) (Double.ofInt 3) []).2.2.2.1 (by decide),
   by decide⟩

/-- Counterexample to C6 as stated: on the stack `[2]`, `sqrt` leaves `[r]`
with `r = 6369051672525773 * 2^-52`, and `r * r` is not `2`, neither as the
rounded product of doubles nor exactly (`r^2 * 2^104 ≠ 2 * 2^104`). -/
theorem sqrt_two_square_is_not_two :
    calculate refLib "sqrt" ⟨[Double.ofInt 2], []⟩ =
      (.ok (), ⟨[.fin false 6369051672525773 (-52)], []⟩) ∧
    Double.eq (Double.mul (.fin false 6369051672525773 (-52))
      (.fin false 6369051672525773 (-52))) (Double.ofInt 2) = false ∧
    6369051672525773 * 6369051672525773 ≠ 2 * 2 ^ 104 := by
  decide

/-- C6 (amended). On `rest ++ [a]`, `sqrt` fails with `NegativeSqrt` exactly
when `a < 0` (`a` is `-inf` or a negative non-zero number); it then leaves
`rest ++ [a]`, and when `a >= 0` it leaves `rest ++ [r]` where `r >= 0` is the
correctly rounded square root of `a`: `r * r = a` holds up to rounding.  For
a positive finite double `a = m * 2^e`, `r = q * 2^t` is a finite normal
double (`2^52 ≤ q < 2^53`, `-1074 ≤ t ≤ 971`) within half a unit in the last
place of the root, `(q - 1/2) * 2^t ≤ √a ≤ (q + 1/2) * 2^t`; the root of a
zero is that zero and the root of `+inf` is `+inf`; the root of 4 is 2.
`-1 sqrt` fails with `NegativeSqrt` and leaves the pre-call stack unchanged. -/
theorem square_root (lib : CLib) (rest : List Double) (a : Double) (h : List String) :
    ((calculate lib "sqrt" ⟨rest ++ [a], h⟩).1 = .error .NegativeSqrt ↔
      Double.lt a Double.zero = true) ∧
    (Double.lt a Double.zero = true ↔ a = .inf true ∨ ∃ m e, a = .fin true m e ∧ m ≠ 0) ∧
    (Double.lt a Double.zero = true →
      calculate lib "sqrt" ⟨rest ++ [a], h⟩ = (.error .NegativeSqrt, ⟨rest ++ [a], h⟩)) ∧
    (Double.lt a Double.zero = false →
      calculate lib "sqrt" ⟨rest ++ [a], h⟩ = (.ok (), ⟨rest ++ [Double.sqrt a], h⟩) ∧
      Double.lt (Double.sqrt a) Double.zero = false) ∧
    (Double.le Double.zero a = true →
      calculate lib "sqrt" ⟨rest ++ [a], h⟩ = (.ok (), ⟨rest ++ [Double.sqrt a], h⟩) ∧
      Double.le Double.zero (Double.sqrt a) = true) ∧
    (∀ (m : Nat) (e : Int), a = .fin false m e → m ≠ 0 → m < 2 ^ 53 → -1074 ≤ e → e ≤ 971 →
      ∃ q t, Double.sqrt a = .fin false q t ∧
        2 ^ 52 ≤ q ∧ q < 2 ^ 53 ∧ -1074 ≤ t ∧ t ≤ 971 ∧
        (((2 * q - 1 : Nat) : ℚ)) ^ 2 * (2 : ℚ) ^ (2 * t) ≤ 4 * (m : ℚ) * (2 : ℚ) ^ e ∧
        4 * (m : ℚ) * (2 : ℚ) ^ e ≤ (((2 * q + 1 : Nat) : ℚ)) ^ 2 * (2 : ℚ) ^ (2 * t)) ∧
    (∀ (n : Bool) (e : Int), a = .fin n 0 e → Double.sqrt a = .fin n 0 (-1074)) ∧
    (a = .inf false → Double.sqrt a = .inf false) ∧
    Double.sqrt (Double.ofInt 4) = Double.ofInt 2 ∧
    evaluate lib "-1 sqrt" ⟨rest, h⟩ = (.error .NegativeSqrt, ⟨rest, h⟩) := by
  refine ⟨?_, Double.lt_zero_iff a, ?_, ?_, ?_, ?_, ?_, ?_, by decide,
    evaluate_minus_one_sqrt lib rest h⟩
  · rw [calculate_sqrt]
    by_cases ha : Double.lt a Double.zero = true <;> simp [ha]
  · intro ha
    rw [calculate_sqrt, if_pos ha]
  · intro ha
    rw [calculate_sqrt, if_neg (by simp [ha])]
    exact ⟨rfl, Double.sqrt_not_lt_zero a ha⟩
  · intro ha
    have hlt : ¬Double.lt a Double.zero = true := by
      intro hcon
      rw [Double.lt_zero_iff] at hcon
      rw [Double.le_zero_iff] at ha
      rcases ha with rfl | ⟨m, e, rfl⟩ | ⟨e, rfl⟩ <;>
        rcases hcon with hc | ⟨m1, e1, hc, hne⟩ <;> simp at hc
      exact hne hc.1.symm
    rw [calculate_sqrt, if_neg hlt]
    exact ⟨rfl, Double.sqrt_ge_zero a ha⟩
  · rintro m e rfl hm hm53 helo hehi
    exact Double.sqrt_correctly_rounded m e hm hm53 helo hehi
  · rintro n e rfl
    simp [Double.sqrt]
  · rintro rfl
    rfl

/-- Witness for C6 (amended): `sqrt` on `[7, -4]` fails and leaves it; on
`[7, 4]` it leaves `[7, 2]`, which is at least zero; and the root of
`2 = 2^52 * 2^-51` is a normal double within half a unit in the last place of
`√2`. -/
theorem square_root_witness :
    calculate refLib "sqrt" ⟨[Double.ofInt 7] ++ [Double.ofInt (-4)], []⟩ =
      (.error .NegativeSqrt, ⟨[Double.ofInt 7] ++ [Double.ofInt (-4)], []⟩) ∧
    (calculate refLib "sqrt" ⟨[Double.ofInt 7] ++ [Double.ofInt 4], []⟩ =
      (.ok (), ⟨[Double.ofInt 7] ++ [Double.sqrt (Double.ofInt 4)], []⟩) ∧
      Double.le Double.zero (Double.sqrt (Double.ofInt 4)) = true) ∧
    (∃ q t, Double.sqrt (.fin false 4503599627370496 (-51)) = .fin false q t ∧
      2 ^ 52 ≤ q ∧ q < 2 ^ 53 ∧ -1074 ≤ t ∧ t ≤ 971 ∧
      (((2 * q - 1 : Nat) : ℚ)) ^ 2 * (2 : ℚ) ^ (2 * t) ≤
        4 * ((4503599627370496 : Nat) : ℚ) * (2 : ℚ) ^ (-51 : Int) ∧
      4 * ((4503599627370496 : Nat) : ℚ) * (2 : ℚ) ^ (-51 : Int) ≤
        (((2 * q + 1 : Nat) : ℚ)) ^ 2 * (2 : ℚ) ^ (2 * t)) ∧
    Double.sqrt (.fin false 4503599627370496 (-51)) = .fin false 6369051672525773 (-52) :=
  ⟨(square_root refLib [Double.ofInt 7] (Double.ofInt (-4)) []).2.2.1 (by decide),
   (square_root refLib [Double.ofInt 7] (Double.ofInt 4) []).2.2.2.2.1 (by decide),
   (square_root refLib [] (.fin false 4503599627370496 (-51)) []).2.2.2.2.2.1
     4503599627370496 (-51) rfl (by decide) (by decide) (by decide) (by decide),
   by decide⟩

/-- C7, the code at the failing input `93 fib`.  `10 fib` returns 55, but
the operand 93 passes the bound `intN > 93`, the loop runs 93 times, and the
accumulator ends at `F(93) - 2^64`, because `F(93) = 12200160415121876738`
exceeds the largest `long long` (`2^63 - 1`): the value returned is negative,
not `F(93)`. -/
theorem fib_93_wraps (lib : CLib) (h : List String) :
    (evaluate lib "10 fib" ⟨[], h⟩).1 = .ok (Double.ofInt 55) ∧
    (evaluate lib "93 fib" ⟨[], h⟩).1 = .ok (Double.ofInt (-6246583658587674878)) ∧
    (evaluate lib "93 fib" ⟨[], h⟩).2.stack_ = [Double.ofInt (-6246583658587674878)] ∧
    (-6246583658587674878 : Int) = (Nat.fib 93 : Int) - 2 ^ 64 ∧
    (2 : Int) ^ 63 - 1 < Nat.fib 93 ∧
    Double.ofInt (-6246583658587674878) ≠ Double.ofInt (Nat.fib 93) ∧
    Double.lt (Double.ofInt (-6246583658587674878)) Double.zero = true := by
  have hs : stod "93" = .ok (Double.ofInt 93) := by decide
  have hc : calculate lib "fib" ⟨[] ++ [Double.ofInt 93], h⟩ =
      (.ok (), ⟨[Double.ofInt (-6246583658587674878)], h⟩) := by
    obtain ⟨h1, h2, h3, h4⟩ := fib_small_checks 93 (by decide)
    have h93 : Double.ofInt ((93 : Nat) : Int) = Double.ofInt 93 := rfl
    rw [h93] at h1 h2 h3
    rw [calculate_fib, h1, h2, h3]
    simp only [Bool.or_self, Bool.false_eq_true, if_false, Int.toNat_ofNat]
    rw [if_neg (by decide), h4]
    rfl
  have hp := evaluate_fib_literal lib h "93" _ (by decide) hs
  rw [hc] at hp
  have ht : tokenize "93 fib" = ["93", "fib"] := by decide
  rw [← ht] at hp
  have h10 : (evaluate lib "10 fib" ⟨[], h⟩).1 = .ok (Double.ofInt 55) := by
    have hp10 := evaluate_fib_literal lib h "10" _ (by decide)
      (show stod "10" = .ok (Double.ofInt ((10 : Nat) : Int)) from by decide)
    rw [fib_correct_below_93 lib [] h 10 (by decide),
      ← show tokenize "10 fib" = ["10", "fib"] from by decide] at hp10
    rw [evaluate_of_loop lib _ _ _ _ hp10]
    rfl
  rw [evaluate_of_loop lib _ _ _ _ hp]
  exact ⟨h10, rfl, rfl, by decide, by decide, by decide, by decide⟩

/-- C8, the code at the failing input `2147483648 fib`.  The operand `2^31`
is integral and not negative, its conversion to `int` is out of range and
yields `INT_MIN`, which passes the bound `intN > 93`; the loop does not run
and `0` is pushed instead of failing with `FibOverflow`.  The same happens
for `2^32` and `5000000000`, while `94 fib` is rejected. -/
theorem fib_huge_index_returns_zero (lib : CLib) (h : List String) :
    (evaluate lib "2147483648 fib" ⟨[], h⟩).1 = .ok Double.zero ∧
    (evaluate lib "2147483648 fib" ⟨[], h⟩).2.stack_ = [Double.zero] ∧
    (evaluate lib "4294967296 fib" ⟨[], h⟩).1 = .ok Double.zero ∧
    (evaluate lib "5000000000 fib" ⟨[], h⟩).1 = .ok Double.zero ∧
    evaluate lib "94 fib" ⟨[], h⟩ = (.error .FibOverflow, ⟨[], h⟩) := by
  have key : ∀ (t : String) (n : Double), isNumber t = true → stod t = .ok n →
      Double.lt n Double.zero = false → Double.ne (Double.floor n) n = false →
      Double.toInt n = Double.INT_MIN → ∀ expr, tokenize expr = [t, "fib"] →
      evaluate lib expr ⟨[], h⟩ =
        (.ok Double.zero, ⟨[Double.zero], h ++ [expr ++ " => " ++ lib.to_string Double.zero]⟩) := by
    intro t n hn hs h1 h2 h3 expr ht
    have hc : calculate lib "fib" ⟨[] ++ [n], h⟩ = (.ok (), ⟨[Double.zero], h⟩) := by
      rw [calculate_fib, h1, h2, h3]
      simp only [Bool.or_self, Bool.false_eq_true, if_false]
      rw [if_neg (by decide)]
      rfl
    have hp := evaluate_fib_literal lib h t _ hn hs
    rw [hc, ← ht] at hp
    rw [evaluate_of_loop lib _ _ _ _ hp]
    rfl
  have e1 := key "2147483648" (Double.ofInt 2147483648) (by decide) (by decide) (by decide)
    (by decide) (by decide) "2147483648 fib" (by decide)
  have e2 := key "4294967296" (Double.ofInt 4294967296) (by decide) (by decide) (by decide)
    (by decide) (by decide) "4294967296 fib" (by decide)
  have e3 := key "5000000000" (Double.ofInt 5000000000) (by decide) (by decide) (by decide)
    (by decide) (by decide) "5000000000 fib" (by decide)
  refine ⟨by rw [e1], by rw [e1], by rw [e2], by rw [e3], ?_⟩
  have hc : calculate lib "fib" ⟨[] ++ [Double.ofInt 94], h⟩ =
      (.error .FibOverflow, ⟨[Double.ofInt 94], h⟩) := by
    rw [calculate_fib, if_neg (by decide), if_pos (by decide)]
    rfl
  have hp := evaluate_fib_literal lib h "94" _ (by decide)
    (show stod "94" = .ok (Double.ofInt 94) from by decide)
  rw [hc, ← show tokenize "94 fib" = ["94", "fib"] from by decide] at hp
  rw [evaluate_of_loop lib _ _ _ _ hp]

/-- C9. On `rest ++ [n]`, `fib` fails with `InvalidFibInput` exactly when
`n < 0` or `floor(n) != n`; whenever `fib` fails the stack is left equal to
`rest ++ [n]`; and the input check comes first: a negative or non-integral
`n` never yields `FibOverflow`. -/
theorem fib_input_validation (lib : CLib) (rest : List Double) (n : Double) (h : List String) :
    ((calculate lib "fib" ⟨rest ++ [n], h⟩).1 = .error .InvalidFibInput ↔
      (Double.lt n Double.zero = true ∨ Double.ne (Double.floor n) n = true)) ∧
    (∀ err, (calculate lib "fib" ⟨rest ++ [n], h⟩).1 = .error err →
      (calculate lib "fib" ⟨rest ++ [n], h⟩).2 = ⟨rest ++ [n], h⟩) ∧
    ((Double.lt n Double.zero = true ∨ Double.ne (Double.floor n) n = true) →
      (calculate lib "fib" ⟨rest ++ [n], h⟩).1 ≠ .error .FibOverflow) := by
  rw [calculate_fib]
  by_cases hv : (Double.lt n Double.zero || Double.ne (Double.floor n) n) = true
  · have hv1 : Double.lt n Double.zero = true ∨ Double.ne (Double.floor n) n = true := by
      simpa using hv
    rw [if_pos hv]
    simp [hv1]
  · have hv1 : ¬(Double.lt n Double.zero = true ∨ Double.ne (Double.floor n) n = true) := by
      simpa using hv
    rw [if_neg hv]
    by_cases hb : Double.toInt n > 93
    · rw [if_pos hb]
      simp [hv1]
    · rw [if_neg hb]
      simp [hv1]

/-- Witness for C9: on `[3, 2.5]` and on `[3, -2]`, `fib` fails with
`InvalidFibInput` and leaves the stack. -/
theorem fib_input_validation_witness :
    (calculate refLib "fib" ⟨[Double.ofInt 3] ++ [Double.roundQ false 25 10 0], []⟩).2 =
      ⟨[Double.ofInt 3] ++ [Double.roundQ false 25 10 0], []⟩ ∧
    (calculate refLib "fib" ⟨[Double.ofInt 3] ++ [Double.ofInt (-2)], []⟩).1 ≠
      .error .FibOverflow :=
  ⟨(fib_input_validation refLib [Double.ofInt 3] (Double.roundQ false 25 10 0) []).2.1
      .InvalidFibInput (by decide),
   (fib_input_validation refLib [Double.ofInt 3] (Double.ofInt (-2)) []).2.2
      (Or.inl (by decide))⟩

/-- C10. `isNumber` is the stated grammar: `isNumber(t)` holds iff `t` is
non-empty and, after removing at most one leading sign, what remains is
non-empty and consists solely of digits and at most one `.`.  In particular
`-` and `+` alone are not literals, nor is a token containing `e` or `E`, a
second `.`, or a sign after the first character, while `+5`, `-3.25` and `7.`
are. -/
theorem isNumber_iff_grammar (t : String) :
    (isNumber t = true ↔ IsLiteral t) ∧
    isNumber "-" = false ∧ isNumber "+" = false ∧
    (('e' ∈ t.data ∨ 'E' ∈ t.data) → isNumber t = false) ∧
    (2 ≤ t.data.count '.' → isNumber t = false) ∧
    (('+' ∈ t.data.tail ∨ '-' ∈ t.data.tail) → isNumber t = false) ∧
    isNumber "+5" = true ∧ isNumber "-3.25" = true ∧ isNumber "7." = true := by
  have main : isNumber t = true ↔ IsLiteral t := by
    unfold isNumber IsLiteral
    cases hdata : t.data with
    | nil => simp
    | cons c0 rest =>
      simp only [ne_eq, reduceCtorEq, not_false_eq_true, true_and, List.cons.injEq]
      by_cases hs : c0 = '+' ∨ c0 = '-'
      · have hnd : ¬(c0.isDigit = true ∨ c0 = '.') := by
          rcases hs with rfl | rfl <;> decide
        rw [if_pos hs]
        constructor
        · intro h
          by_cases hr : rest = []
          · simp [hr] at h
          · rw [if_neg hr, isNumberLoop_iff] at h
            exact ⟨rest, Or.inr ⟨c0, hs, rfl, rfl⟩, hr, h.1, by simpa using h.2⟩
        · rintro ⟨r, hr, hne, hall, hcnt⟩
          rcases hr with rfl | ⟨sgn, _, _, rfl⟩
          · exact absurd (hall c0 (List.mem_cons_self _ _)) hnd
          · rw [if_neg hne, isNumberLoop_iff]
            exact ⟨hall, by simpa using hcnt⟩
      · rw [if_neg hs, isNumberLoop_iff]
        constructor
        · intro h
          exact ⟨c0 :: rest, Or.inl rfl, by simp, h.1, by simpa using h.2⟩
        · rintro ⟨r, hr, hne, hall, hcnt⟩
          rcases hr with rfl | ⟨sgn, hsg, rfl, rfl⟩
          · exact ⟨hall, by simpa using hcnt⟩
          · exact absurd hsg hs
  have bad : ∀ r : List Char, IsLiteral t → (r = t.data ∨ r = t.data.tail) →
      (∀ c ∈ r, c.isDigit = true ∨ c = '.' ∨ c = '+' ∨ c = '-') ∧
      (r = t.data.tail → ∀ c ∈ r, c.isDigit = true ∨ c = '.') ∧ t.data.count '.' ≤ 1 := by
    rintro r ⟨_, r0, hr0, _, hall, hcnt⟩ hr
    rcases hr0 with rfl | ⟨sgn, hsg, hd⟩
    · refine ⟨?_, ?_, hcnt⟩
      · intro c hc
        have hc1 : c ∈ t.data := by
          rcases hr with rfl | rfl
          · exact hc
          · exact List.mem_of_mem_tail hc
        rcases hall c hc1 with h1 | h1
        · exact Or.inl h1
        · exact Or.inr (Or.inl h1)
      · rintro rfl c hc
        exact hall c (List.mem_of_mem_tail hc)
    · have hne : sgn ≠ '.' := by rcases hsg with rfl | rfl <;> decide
      refine ⟨?_, ?_, ?_⟩
      · intro c hc
        have hc1 : c ∈ t.data := by
          rcases hr with rfl | rfl
          · exact hc
          · exact List.mem_of_mem_tail hc
        rw [hd, List.mem_cons] at hc1
        rcases hc1 with rfl | hc1
        · exact Or.inr (Or.inr hsg)
        · rcases hall c hc1 with h1 | h1
          · exact Or.inl h1
          · exact Or.inr (Or.inl h1)
      · rintro rfl c hc
        rw [hd, List.tail_cons] at hc
        exact hall c hc
      · rw [hd, List.count_cons_of_ne (Ne.symm hne)]
        exact hcnt
  refine ⟨main, by decide, by decide, ?_, ?_, ?_, by decide, by decide, by decide⟩
  · intro he
    rw [← Bool.not_eq_true, main]
    intro hl
    have hb := (bad t.data hl (Or.inl rfl)).1
    rcases he with he | he
    · exact absurd (hb _ he) (by decide)
    · exact absurd (hb _ he) (by decide)
  · intro h2
    rw [← Bool.not_eq_true, main]
    intro hl
    have hb := (bad t.data hl (Or.inl rfl)).2.2
    omega
  · intro hs
    rw [← Bool.not_eq_true, main]
    intro hl
    have hb := (bad t.data.tail hl (Or.inr rfl)).2.1 rfl
    rcases hs with hs | hs
    · exact absurd (hb _ hs) (by decide)
    · exact absurd (hb _ hs) (by decide)

/-- Witness for C10: `1e5`, `1.2.3` and `5-3` are rejected. -/
theorem isNumber_iff_grammar_witness :
    isNumber "1e5" = false ∧ isNumber "1.2.3" = false ∧ isNumber "5-3" = false :=
  ⟨(isNumber_iff_grammar "1e5").2.2.2.1 (Or.inl (by decide)),
   (isNumber_iff_grammar "1.2.3").2.2.2.2.1 (by decide),
   (isNumber_iff_grammar "5-3").2.2.2.2.2.1 (Or.inr (by decide))⟩

/-- C11, the code at the failing input `.`.  The tokens `.`, `+.` and `-.`
pass `isNumber`, `std::stod` finds no digit in them and throws
`std::invalid_argument`, so `evaluate` fails (with the stack restored) instead
of pushing a value; the 310-digit literal `10^309` passes `isNumber` and
`std::stod` throws `std::out_of_range`.  Neither error is in the taxonomy. -/
theorem bare_dot_literal_throws (lib : CLib) (s : List Double) (h : List String) :
    isNumber "." = true ∧ isNumber "+." = true ∧ isNumber "-." = true ∧
    evaluate lib "." ⟨s, h⟩ = (.error .InvalidArgument, ⟨s, h⟩) ∧
    evaluate lib "+." ⟨s, h⟩ = (.error .InvalidArgument, ⟨s, h⟩) ∧
    evaluate lib "-." ⟨s, h⟩ = (.error .InvalidArgument, ⟨s, h⟩) ∧
    isNumber tenTo309 = true ∧
    evaluate lib tenTo309 ⟨s, h⟩ = (.error .OutOfRange, ⟨s, h⟩) := by
  have key : ∀ (t : String) (err : Error), isNumber t = true → stod t = .error err →
      evaluate lib t ⟨s, h⟩ = (.error err, ⟨s, h⟩) := by
    intro t err hn hs
    have hp : processTokens lib (tokenize t) ⟨s, h⟩ = (.error err, ⟨s, h⟩) := by
      rw [tokenize_literal t hn, processTokens_literal_fail lib t [] err _ hn hs]
    rw [evaluate_of_loop lib _ _ _ _ hp]
  exact ⟨by decide, by decide, by decide, key "." _ (by decide) (by decide),
    key "+." _ (by decide) (by decide), key "-." _ (by decide) (by decide),
    stod_tenTo309.1, key tenTo309 _ stod_tenTo309.1 stod_tenTo309.2⟩

/-- C12. A token that is not one of the eight operator names makes
`calculate` fail with `UnknownOperator` carrying the token and leaves the
state as it was; matching is exact (`SQRT` and `++` are unknown).  If such a
token is not a numeric literal and the tokens before it in an expression
succeed, `evaluate` fails with `UnknownOperator` of that token and the state
is as before the call. -/
theorem unknown_operator (lib : CLib) (t : String) (c : RPNCalculator)
    (h1 : t ≠ "+") (h2 : t ≠ "-") (h3 : t ≠ "*") (h4 : t ≠ "/") (h5 : t ≠ "sqrt")
    (h6 : t ≠ "^") (h7 : t ≠ "fib") (h8 : t ≠ "hist") :
    calculate lib t c = (.error (.UnknownOperator t), c) ∧
    (isNumber t = false → ∀ (expr : String) (pre post : List String) (c1 : RPNCalculator),
      tokenize expr = pre ++ t :: post → processTokens lib pre c = (.ok (), c1) →
      evaluate lib expr c = (.error (.UnknownOperator t), c)) ∧
    calculate lib "SQRT" c = (.error (.UnknownOperator "SQRT"), c) ∧
    calculate lib "++" c = (.error (.UnknownOperator "++"), c) := by
  refine ⟨calculate_unknown lib t c h1 h2 h3 h4 h5 h6 h7 h8, ?_,
    calculate_unknown lib "SQRT" c (by decide) (by decide) (by decide) (by decide) (by decide)
      (by decide) (by decide) (by decide),
    calculate_unknown lib "++" c (by decide) (by decide) (by decide) (by decide) (by decide)
      (by decide) (by decide) (by decide)⟩
  intro hn expr pre post c1 htok hpre
  have hp : processTokens lib (tokenize expr) c = (.error (.UnknownOperator t), c1) := by
    rw [htok, processTokens_append, hpre]
    simp only
    rw [processTokens_operator lib t post c1 hn,
      calculate_unknown lib t c1 h1 h2 h3 h4 h5 h6 h7 h8]
  have hh : c1.history_ = c.history_ := by
    have := (processTokens_frame lib pre c).1
    rw [hpre] at this
    exact this
  rw [evaluate_of_loop lib _ _ _ _ hp]
  simp only [hh]

/-- Witness for C12: `foo` is unknown, and `1 2 foo 3` fails with
`UnknownOperator foo` on the stack `[9]`, which is left as it was. -/
theorem unknown_operator_witness :
    calculate refLib "foo" ⟨[Double.ofInt 9], []⟩ =
      (.error (.UnknownOperator "foo"), ⟨[Double.ofInt 9], []⟩) ∧
    evaluate refLib "1 2 foo 3" ⟨[Double.ofInt 9], []⟩ =
      (.error (.UnknownOperator "foo"), ⟨[Double.ofInt 9], []⟩) :=
  ⟨(unknown_operator refLib "foo" ⟨[Double.ofInt 9], []⟩ (by decide) (by decide) (by decide)
      (by decide) (by decide) (by decide) (by decide) (by decide)).1,
   (unknown_operator refLib "foo" ⟨[Double.ofInt 9], []⟩ (by decide) (by decide) (by decide)
      (by decide) (by decide) (by decide) (by decide) (by decide)).2.1 (by decide)
      "1 2 foo 3" ["1", "2"] ["3"] ⟨[Double.ofInt 9, Double.ofInt 1, Double.ofInt 2], []⟩
      (by decide) (by decide)⟩

/-- C13. Arity is checked before anything is popped: an operator of arity
`k` (2 for `+ - * / ^`, 1 for `sqrt` and `fib`) fails with
`InsufficientOperands` exactly when the stack has fewer than `k` elements, and
then the state is exactly as before (`+` on a one-element stack keeps the
element).  `ensureSize(n)` fails exactly when the size is below `n` and never
changes the state. -/
theorem arity_checked_first (lib : CLib) (operation : String) (k n : Nat) (s : List Double)
    (h : List String) (hk : arity operation = some k) :
    ((calculate lib operation ⟨s, h⟩).1 = .error .InsufficientOperands ↔ s.length < k) ∧
    (s.length < k →
      calculate lib operation ⟨s, h⟩ = (.error .InsufficientOperands, ⟨s, h⟩)) ∧
    (arity "+" = some 2 ∧ arity "-" = some 2 ∧ arity "*" = some 2 ∧ arity "/" = some 2 ∧
      arity "^" = some 2 ∧ arity "sqrt" = some 1 ∧ arity "fib" = some 1) ∧
    (∀ a, calculate lib "+" ⟨[a], h⟩ = (.error .InsufficientOperands, ⟨[a], h⟩)) ∧
    ((ensureSize n ⟨s, h⟩).1 = .error .InsufficientOperands ↔ s.length < n) ∧
    ((ensureSize n ⟨s, h⟩).1 = .ok () ↔ n ≤ s.length) ∧
    (ensureSize n ⟨s, h⟩).2 = ⟨s, h⟩ := by
  obtain ⟨a1, a2⟩ := calculate_arity lib operation k s h hk
  refine ⟨a1, a2, by decide, ?_, ?_, ?_, ?_⟩
  · intro a
    exact (calculate_arity lib "+" 2 [a] h (by decide)).2 (by simp)
  · by_cases hl : s.length < n <;> simp [ensureSize, hl]
  · by_cases hl : s.length < n
    · simp [ensureSize, hl]
    · simp [ensureSize, hl]
      omega
  · by_cases hl : s.length < n <;> simp [ensureSize, hl]

/-- Witness for C13: `/` on the one-element stack `[4]` fails with
`InsufficientOperands` and keeps `[4]`. -/
theorem arity_checked_first_witness :
    calculate refLib "/" ⟨[Double.ofInt 4], []⟩ =
      (.error .InsufficientOperands, ⟨[Double.ofInt 4], []⟩) :=
  (arity_checked_first refLib "/" 2 0 [Double.ofInt 4] [] (by decide)).2.1 (by decide)

/-- C14. Stack-size accounting: after a successful `evaluate` the size of
the stack is the size before, plus the number of literal tokens, minus the
number of tokens among `+ - * / ^` (stated without subtraction); `sqrt`, `fib`
and `hist` leave the size as it is. -/
theorem stack_size_accounting (lib : CLib) (expr : String) (c c1 : RPNCalculator) (v : Double)
    (h : evaluate lib expr c = (.ok v, c1)) :
    c1.stack_.length + countBinary (tokenize expr) =
      c.stack_.length + countLiterals (tokenize expr) := by
  rcases evaluate_cases lib expr c with ⟨e, _, he⟩ | ⟨_, _, he⟩ | ⟨top, hok, _, he⟩
  · rw [he] at h
    simp at h
  · rw [he] at h
    simp at h
  · rw [he] at h
    simp only [Prod.mk.injEq, Except.ok.injEq] at h
    rw [← h.2]
    exact processTokens_length lib (tokenize expr) c hok

/-- Witness for C14: `1 2 +` on the stack `[4]` has two literals and one
binary operator and leaves two elements. -/
theorem stack_size_accounting_witness :
    [Double.ofInt 4, Double.ofInt 3].length + countBinary (tokenize "1 2 +") =
      [Double.ofInt 4].length + countLiterals (tokenize "1 2 +") :=
  stack_size_accounting refLib "1 2 +" ⟨[Double.ofInt 4], []⟩
    ⟨[Double.ofInt 4, Double.ofInt 3], ["1 2 + => 3.000000"]⟩ (Double.ofInt 3) (by decide)

/-- C15, the code at the failing input: the line `hist` on a non-empty
stack.  `printStack` and the operator step `calculate("hist")` leave the state
alone, but `main` does not intercept the line `hist`: it goes to `evaluate`,
which on a stack with top `v` succeeds and appends `hist => v` to the history.
On the empty stack the call fails with `EmptyResult` and the state is kept. -/
theorem hist_line_is_recorded (lib : CLib) (s : List Double) (v : Double) (h : List String)
    (c : RPNCalculator) :
    printStack c = (.ok (), c) ∧
    calculate lib "hist" c = (.ok (), c) ∧
    mainStep lib "print" c = some c ∧
    evaluate lib "hist" ⟨s ++ [v], h⟩ =
      (.ok v, ⟨s ++ [v], h ++ ["hist => " ++ lib.to_string v]⟩) ∧
    mainStep lib "hist" ⟨s ++ [v], h⟩ =
      some ⟨s ++ [v], h ++ ["hist => " ++ lib.to_string v]⟩ ∧
    h ++ ["hist => " ++ lib.to_string v] ≠ h ∧
    evaluate lib "hist" ⟨[], h⟩ = (.error .EmptyResult, ⟨[], h⟩) := by
  have hp : ∀ c0 : RPNCalculator, processTokens lib (tokenize "hist") c0 = (.ok (), c0) := by
    intro c0
    rw [show tokenize "hist" = ["hist"] from by decide]
    exact processTokens_hist lib ["hist"] c0 (by simp)
  have he : evaluate lib "hist" ⟨s ++ [v], h⟩ =
      (.ok v, ⟨s ++ [v], h ++ ["hist => " ++ lib.to_string v]⟩) := by
    rw [evaluate_of_loop lib _ _ _ _ (hp _)]
    simp
  have ht : trimLine "hist" = "hist" := by decide
  refine ⟨rfl, calculate_hist lib c, ?_, he, ?_, ?_, ?_⟩
  · have hpr : trimLine "print" = "print" := by decide
    simp only [mainStep, hpr]
    rfl
  · simp only [mainStep, ht]
    rw [if_neg (by decide), if_neg (by decide), if_neg (by decide), if_neg (by decide),
      if_neg (by decide), he]
  · intro hcon
    have := congrArg List.length hcon
    simp at this
  · rw [evaluate_of_loop lib _ _ _ _ (hp _)]
    rfl

/-- C16. The stack primitives are LIFO: `push` never fails and appends the
value as the new top; `pop` fails with `EmptyStack` exactly on the empty
stack, which it leaves empty, and otherwise returns the last element and
removes exactly it; `push` followed by `pop` returns the value pushed and
restores the stack; `clear` never fails, empties the stack and keeps the
history. -/
theorem stack_lifo (s : List Double) (h : List String) (v : Double) :
    push v ⟨s, h⟩ = (.ok (), ⟨s ++ [v], h⟩) ∧
    ((pop ⟨s, h⟩).1 = .error .EmptyStack ↔ s.length = 0) ∧
    (s.length = 0 → pop ⟨s, h⟩ = (.error .EmptyStack, ⟨[], h⟩)) ∧
    (∀ rest top, s = rest ++ [top] → pop ⟨s, h⟩ = (.ok top, ⟨rest, h⟩)) ∧
    (Method.bind (push v) (fun _ => pop)) ⟨s, h⟩ = (.ok v, ⟨s, h⟩) ∧
    clear ⟨s, h⟩ = (.ok (), ⟨[], h⟩) := by
  refine ⟨rfl, ?_, ?_, ?_, ?_, rfl⟩
  · rcases List.eq_nil_or_concat s with rfl | ⟨rest, top, rfl⟩
    · simp [pop_nil]
    · simp [pop_snoc]
  · intro h0
    rw [List.length_eq_zero.mp h0, pop_nil]
  · rintro rest top rfl
    exact pop_snoc rest top h
  · simp only [Method.bind, push]
    rw [pop_snoc]

/-- Witness for C16: `pop` on `[1, 2]` returns `2` and leaves `[1]`; on the
empty stack it fails. -/
theorem stack_lifo_witness :
    pop ⟨[Double.ofInt 1, Double.ofInt 2], []⟩ = (.ok (Double.ofInt 2), ⟨[Double.ofInt 1], []⟩) ∧
    pop ⟨[], []⟩ = (.error .EmptyStack, ⟨[], []⟩) :=
  ⟨(stack_lifo [Double.ofInt 1, Double.ofInt 2] [] Double.zero).2.2.2.1 [Double.ofInt 1]
      (Double.ofInt 2) rfl,
   (stack_lifo [] [] Double.zero).2.2.1 rfl⟩

/-- C17. The per-operator push-backs are redundant at the `evaluate`
boundary: with the manual restoration removed from the failure paths of `/`,
`sqrt` and `fib`, `evaluate` yields the same outcome (value or error), the
same stack and the same history, for every state and expression. -/
theorem restoration_is_redundant (lib : CLib) (expr : String) (c : RPNCalculator) :
    evaluateNoRestore lib expr c = evaluate lib expr c := by
  obtain ⟨a1, a2, a3⟩ := processTokensNoRestore_agrees lib (tokenize expr) c
  simp only [evaluateNoRestore, evaluate]
  rcases hp : processTokens lib (tokenize expr) c with ⟨r, c1⟩
  rcases hp2 : processTokensNoRestore lib (tokenize expr) c with ⟨r2, c2⟩
  rw [hp, hp2] at a1 a2 a3
  simp only at a1 a2 a3
  subst a1
  cases r2 with
  | error e =>
    simp only [a2]
  | ok u =>
    have hcc : c2 = c1 := by
      have := a3 rfl
      simpa using this
    subst hcc
    rfl

/-- C18. `evaluate` fails with `EmptyResult` exactly when the stack before
the call is empty and every token of the expression is `hist` (no token at
all included).  So on a non-empty stack, or with a literal among the tokens,
`EmptyResult` does not occur; and an expression without tokens on a non-empty
stack succeeds, returns the current top and leaves the stack as it is. -/
theorem empty_result_iff (lib : CLib) (expr : String) (c : RPNCalculator) :
    ((evaluate lib expr c).1 = .error .EmptyResult ↔
      c.stack_ = [] ∧ ∀ t ∈ tokenize expr, t = "hist") ∧
    (c.stack_ ≠ [] → (evaluate lib expr c).1 ≠ .error .EmptyResult) ∧
    ((∃ t ∈ tokenize expr, isNumber t = true) →
      (evaluate lib expr c).1 ≠ .error .EmptyResult) ∧
    (∀ rest top, c.stack_ = rest ++ [top] → tokenize expr = [] →
      (evaluate lib expr c).1 = .ok top ∧ (evaluate lib expr c).2.stack_ = c.stack_) ∧
    tokenize "" = [] ∧ tokenize "   " = [] := by
  have main : (evaluate lib expr c).1 = .error .EmptyResult ↔
      c.stack_ = [] ∧ ∀ t ∈ tokenize expr, t = "hist" := by
    constructor
    · intro h
      rcases evaluate_cases lib expr c with ⟨e, herr, he⟩ | ⟨hok, hnil, _⟩ | ⟨top, _, _, he⟩
      · rw [he] at h
        simp only [Except.error.injEq] at h
        subst h
        exact absurd rfl (processTokens_errors lib _ c _ herr).2
      · exact processTokens_empty lib _ c hok hnil
      · rw [he] at h
        simp at h
    · rintro ⟨hs, hall⟩
      have hp := processTokens_hist lib (tokenize expr) c hall
      rw [evaluate_of_loop lib _ _ _ _ hp]
      simp [hs]
  refine ⟨main, ?_, ?_, ?_, by decide, by decide⟩
  · intro hne h
    exact hne (main.mp h).1
  · rintro ⟨t, ht, hn⟩ h
    have := (main.mp h).2 t ht
    subst this
    exact absurd hn (by decide)
  · intro rest top hs ht
    have hp : processTokens lib (tokenize expr) c = (.ok (), c) := by
      rw [ht]
      rfl
    rw [evaluate_of_loop lib _ _ _ _ hp]
    simp [hs]

/-- Witness for C18: `hist hist` on the empty stack fails with `EmptyResult`;
the empty expression on the stack `[7]` returns `7` and keeps `[7]`. -/
theorem empty_result_iff_witness :
    (evaluate refLib "hist hist" fresh).1 = .error .EmptyResult ∧
    ((evaluate refLib "" ⟨[Double.ofInt 7], []⟩).1 = .ok (Double.ofInt 7) ∧
      (evaluate refLib "" ⟨[Double.ofInt 7], []⟩).2.stack_ = [Double.ofInt 7]) :=
  ⟨(empty_result_iff refLib "hist hist" fresh).1.mpr ⟨rfl, by decide⟩,
   (empty_result_iff refLib "" ⟨[Double.ofInt 7], []⟩).2.2.2.1 [] (Double.ofInt 7) rfl
     (by decide)⟩

/-- C19. `EmptyStack` is unreachable through the evaluator: `calculate`
never fails with `EmptyStack`, whatever the token and the stack, because every
`pop` comes after an `ensureSize` that guarantees the element, and `evaluate`
never fails with `EmptyStack`, whatever the expression and the stack. -/
theorem empty_stack_unreachable (lib : CLib) (operation expr : String) (c : RPNCalculator) :
    (calculate lib operation c).1 ≠ .error .EmptyStack ∧
    (evaluate lib expr c).1 ≠ .error .EmptyStack := by
  constructor
  · intro h
    exact ((calculate_frame lib operation c).2.1 _ h).2 rfl
  · intro h
    rcases evaluate_cases lib expr c with ⟨e, herr, he⟩ | ⟨_, _, he⟩ | ⟨top, _, _, he⟩
    · rw [he] at h
      simp only [Except.error.injEq] at h
      subst h
      exact absurd rfl (processTokens_errors lib _ c _ herr).1
    · rw [he] at h
      simp at h
    · rw [he] at h
      simp at h

/-- C20. Evaluation composes across calls: if `e1` succeeds from a state and
`e2` then succeeds with result `r`, the single expression `e1`, whitespace,
`e2` succeeds from the first state with the same result and the same final
stack, and appends one history entry instead of two.  Tokenization only sees
the maximal runs of non-whitespace characters: any non-empty run of
whitespace separates as a single space does, and expressions with the same
tokens give the same outcome and stack. -/
theorem evaluate_composes (lib : CLib) (e1 e2 : String) (c c1 c2 : RPNCalculator)
    (r1 r : Double) (h1 : evaluate lib e1 c = (.ok r1, c1))
    (h2 : evaluate lib e2 c1 = (.ok r, c2)) :
    evaluate lib (e1 ++ " " ++ e2) c =
      (.ok r, ⟨c2.stack_, c.history_ ++ [e1 ++ " " ++ e2 ++ " => " ++ lib.to_string r]⟩) ∧
    (∀ ws : List Char, ws ≠ [] → (∀ ch ∈ ws, isSpace ch = true) →
      tokenize (e1 ++ String.mk ws ++ e2) = tokenize e1 ++ tokenize e2 ∧
      (evaluate lib (e1 ++ String.mk ws ++ e2) c).1 = .ok r ∧
      (evaluate lib (e1 ++ String.mk ws ++ e2) c).2.stack_ = c2.stack_) ∧
    (∀ e3 e4 : String, tokenize e3 = tokenize e4 →
      (evaluate lib e3 c).1 = (evaluate lib e4 c).1 ∧
      (evaluate lib e3 c).2.stack_ = (evaluate lib e4 c).2.stack_) := by
  obtain ⟨st1, f1, -, hc1⟩ := (evaluate_ok_iff_fold lib e1 c c1 r1).mp h1
  obtain ⟨st2, f2, l2, hc2⟩ := (evaluate_ok_iff_fold lib e2 c1 c2 r).mp h2
  have hst1 : c1.stack_ = st1 := by rw [hc1]
  have hst2 : c2.stack_ = st2 := by rw [hc2]
  rw [hst1] at f2
  have joined : ∀ ws : List Char, ws ≠ [] → (∀ ch ∈ ws, isSpace ch = true) →
      evaluate lib (e1 ++ String.mk ws ++ e2) c =
        (.ok r, ⟨st2, c.history_ ++
          [e1 ++ String.mk ws ++ e2 ++ " => " ++ lib.to_string r]⟩) := by
    intro ws hne hws
    rw [evaluate_ok_iff_fold]
    refine ⟨st2, ?_, l2, rfl⟩
    rw [tokenize_join e1 e2 ws hne hws, foldTokens_append, f1]
    exact f2
  refine ⟨?_, ?_, fun e3 e4 h => evaluate_tokens lib e3 e4 c h⟩
  · have := joined [' '] (by simp) (by decide)
    rw [hst2]
    exact this
  · intro ws hne hws
    refine ⟨tokenize_join e1 e2 ws hne hws, ?_, ?_⟩
    · rw [joined ws hne hws]
    · rw [joined ws hne hws, hst2]

/-- Witness for C20: `2 3` then `+` from the empty stack, and `2 3 +` at
once, both end with the stack `[5]` and the result `5`. -/
theorem evaluate_composes_witness :
    evaluate refLib ("2 3" ++ " " ++ "+") fresh =
      (.ok (Double.ofInt 5),
        ⟨[Double.ofInt 5],
          fresh.history_ ++ ["2 3" ++ " " ++ "+" ++ " => " ++ refLib.to_string (Double.ofInt 5)]⟩) :=
  (evaluate_composes refLib "2 3" "+" fresh
    ⟨[Double.ofInt 2, Double.ofInt 3], ["2 3 => 3.000000"]⟩
    ⟨[Double.ofInt 5], ["2 3 => 3.000000", "+ => 5.000000"]⟩
    (Double.ofInt 3) (Double.ofInt 5) (by decide) (by decide)).1

end RPN
